import Mathlib

/-!
Verification of the Python binding layer `python/vyos/configtree.py`.

The binding wraps a native hierarchical-configuration-tree engine.  The
binding functions themselves (path validation, version-comment splitting,
backslash pre-escaping, error branching, the composition of diff results)
are transcribed from the Python source.  The engine operations that the
source only declares through the foreign-function interface (tree lookup,
set, delete, rename, copy, diff, trim, union, serialization) are modelled
from the specification, as noted on each definition.
-/

namespace Vyos

/-- A configuration-tree node: a name, an ordered list of values, an ordered
list of named children, and a tag flag (spec section 3, data model). -/
inductive Node : Type where
  | mk (name : String) (values : List String) (children : List Node) (tag : Bool)

def Node.name : Node → String
  | .mk n _ _ _ => n

def Node.values : Node → List String
  | .mk _ v _ _ => v

def Node.children : Node → List Node
  | .mk _ _ c _ => c

def Node.tag : Node → Bool
  | .mk _ _ _ t => t

def Node.withChildren : Node → List Node → Node
  | .mk n v _ t, c => .mk n v c t

def Node.withValues : Node → List String → Node
  | .mk n _ c t, v => .mk n v c t

def Node.withName : Node → String → Node
  | .mk _ v c t, n => .mk n v c t

/-- First child with the given name, searching the sibling list in order.
Sibling names are unique in well-formed trees (spec section 3), so the
first match is the only match there. -/
def findNode (p : String) : List Node → Option Node
  | [] => none
  | c :: cs => if c.name = p then some c else findNode p cs

/-- Apply `f` to the first sibling with the given name; identity when no
sibling bears it. -/
def modFirst (p : String) (f : Node → Node) : List Node → List Node
  | [] => []
  | c :: cs => if c.name = p then f c :: cs else c :: modFirst p f cs

/-- Remove the first sibling with the given name; identity when no
sibling bears it. -/
def delFirst (p : String) : List Node → List Node
  | [] => []
  | c :: cs => if c.name = p then cs else c :: delFirst p cs

/-- Apply `f` to the first sibling with the given name, creating the node
(as `set` does) when no sibling bears it. -/
def touchFirst (p : String) (mod : Node → Node) : List Node → List Node
  | [] => [mod (.mk p [] [] false)]
  | c :: cs => if c.name = p then mod c :: cs else c :: touchFirst p mod cs

/-- Replace the first sibling with the given name by `nd`, appending `nd`
when no sibling bears it. -/
def putFirst (p : String) (nd : Node) : List Node → List Node
  | [] => [nd]
  | c :: cs => if c.name = p then nd :: cs else c :: putFirst p nd cs

/-- Modelled from the spec: the engine `exists` primitive.  A path resolves
by walking the children chain; the empty path denotes the root, which
always exists (spec section 4.3). -/
def existsIn : List String → List Node → Bool
  | [], _ => true
  | p :: ps, ns =>
    match findNode p ns with
    | some c => existsIn ps c.children
    | none => false

/-- Modelled from the spec: resolve a path to the node data (values,
children, tag) at that path; the empty path yields the root, which has no
values and no tag (spec sections 3 and 4.3). -/
def getSub : List String → List Node → Option (List String × List Node × Bool)
  | [], ns => some ([], ns, false)
  | [p], ns => (findNode p ns).map (fun c => (c.values, c.children, c.tag))
  | p :: ps, ns =>
    match findNode p ns with
    | some c => getSub ps c.children
    | none => none

/-- Modelled from the spec: the node named by a (necessarily non-empty)
path, rebuilt from its resolved data. -/
def getNodeAt (path : List String) (ns : List Node) : Option Node :=
  match path.getLast? with
  | none => none
  | some nm => (getSub path ns).map fun d => Node.mk nm d.1 d.2.1 d.2.2

/-- Modelled from the spec: the engine `delete_node` primitive.  Removes
the node at the path together with its whole subtree; a path that does not
resolve leaves the tree unchanged (spec section 4.3, delete).  The engine
rejects the empty path internally; since the binding discards the status
code, the net effect on the tree is a no-op, modelled directly. -/
def deleteIn : List String → List Node → List Node
  | [], ns => ns
  | [p], ns => delFirst p ns
  | p :: ps, ns => modFirst p (fun c => c.withChildren (deleteIn ps c.children)) ns

/-- Modelled from the spec: walk (and create, as `set` does) the nodes of
a path and apply `mod` to the final node (spec section 4.3, set: creates
intermediate nodes as needed; fresh nodes are appended after their
siblings).  The empty path is rejected by the engine; the binding ignores
the status code, so it is modelled as a no-op. -/
def setTouch (mod : Node → Node) : List String → List Node → List Node
  | [], ns => ns
  | [p], ns => touchFirst p mod ns
  | p :: ps, ns =>
    if (findNode p ns).isSome then
      modFirst p (fun c => c.withChildren (setTouch mod ps c.children)) ns
    else ns ++ [Node.mk p [] (setTouch mod ps []) false]

/-- Modelled from the spec: `set_valueless` marks the leaf valueless
(spec section 4.3). -/
def setValuelessIn (ps : List String) (ns : List Node) : List Node :=
  setTouch (fun nd => nd.withValues []) ps ns

/-- Modelled from the spec: `set_replace_value` makes the single value
replace existing values (spec section 4.3). -/
def setReplaceIn (ps : List String) (v : String) (ns : List Node) : List Node :=
  setTouch (fun nd => nd.withValues [v]) ps ns

/-- Modelled from the spec: `set_add_value` appends the value, without
filtering duplicates (spec section 4.3). -/
def setAddIn (ps : List String) (v : String) (ns : List Node) : List Node :=
  setTouch (fun nd => nd.withValues (nd.values ++ [v])) ps ns

/-- Modelled from the spec: the engine `rename_node` primitive renames the
final path component; it reports failure (a nonzero status) exactly when
the path does not resolve (spec section 4.3, rename).  Renaming the root
(empty path) is not a resolvable operation. -/
def renameIn : List String → String → List Node → Option (List Node)
  | [], _, _ => none
  | [p], nn, ns =>
    if (findNode p ns).isSome then some (modFirst p (fun c => c.withName nn) ns) else none
  | p :: ps, nn, ns =>
    match findNode p ns with
    | some c =>
      (renameIn ps nn c.children).map (fun r => modFirst p (fun d => d.withChildren r) ns)
    | none => none

/-- Modelled from the spec: graft an already-built node at a (non-empty)
path, creating intermediate nodes as needed; used by copy, which places a
deep copy of the source subtree at the destination path. -/
def placeAt (nd : Node) : List String → List Node → List Node
  | [], ns => ns
  | [p], ns => putFirst p nd ns
  | p :: ps, ns =>
    if (findNode p ns).isSome then
      modFirst p (fun c => c.withChildren (placeAt nd ps c.children)) ns
    else ns ++ [Node.mk p [] (placeAt nd ps []) false]

/-- Modelled from the spec: the engine `copy_node` primitive deep-copies
the subtree rooted at the old path to the new path and reports a
diagnostic message when the old path does not resolve (spec section 4.3,
copy).  Values are immutable here, so re-using the resolved data is a deep
copy. -/
def engineCopy (op np : List String) (ns : List Node) : Except String (List Node) :=
  match np.getLast? with
  | none => .error ("copy: empty destination path")
  | some lastName =>
    match getSub op ns with
    | none => .error ("Path [" ++ String.intercalate " " op ++ "] does not exist")
    | some d => .ok (placeAt (.mk lastName d.1 d.2.1 d.2.2) np ns)

/-! ## The character-level helpers of the binding

`escape_backslash` and `extract_version` are pure Python functions of the
source (lines 23-32); they are transcribed here over `List Char`, modelling
the two regular expressions exactly. -/

/-- One of the five single-letter escape-sequence letters `b f n r t`. -/
def escChar (c : Char) : Bool :=
  c = 'b' || c = 'f' || c = 'n' || c = 'r' || c = 't'

/-- The lookahead `(?!b|f|n|r|t|\\[^bfnrt])` of the `escape_backslash`
regex, evaluated on the characters that follow a backslash: the negative
lookahead FAILS (this returns `true`) when the next character is one of
`b f n r t`, or is a backslash followed by a character other than those. -/
def laMatch : List Char → Bool
  | [] => false
  | [c] => escChar c
  | c :: d :: _ => if c = '\\' then !escChar d else escChar c

/-- The scan of `re.sub` for pattern `(?<!\\)[\\](?!b|f|n|r|t|\\[^bfnrt])`
with replacement `\\\\`: each matched backslash (one not preceded by a
backslash in the original string and whose lookahead admits it) is
replaced by two.  The Boolean argument records whether the previous
original character was a backslash (the lookbehind). -/
def ebScan : Bool → List Char → List Char
  | _, [] => []
  | prevBS, c :: rest =>
    (if c = '\\' ∧ prevBS = false ∧ laMatch rest = false then [c, c] else [c])
      ++ ebScan (decide (c = '\\')) rest

/-- Transcribed from the source (configtree.py lines 23-27):
`escape_backslash` doubles the backslashes matched by
`(?<!\\)[\\](?!b|f|n|r|t|\\[^bfnrt])`. -/
def escape_backslash (s : String) : String :=
  String.mk (ebScan false s.data)

/-- The scan of `re.split('(^//)', s, maxsplit=1, flags=re.MULTILINE)`,
restricted to what the caller keeps: the suffix of `s` starting at the
first occurrence of `//` at the beginning of a line (the start of the
string or the position after a newline), or `[]` when there is none.  The
Boolean argument records whether the current position is at the beginning
of a line. -/
def bannerScan : Bool → List Char → List Char
  | _, [] => []
  | b, c :: rest =>
    if b = true ∧ c = '/' ∧ rest[0]? = some '/' then c :: rest
    else bannerScan (decide (c = '\n')) rest

/-- Transcribed from the source (configtree.py lines 29-32): split on the
first line-initial `//` and return the WHOLE original string paired with
the joined tail `''.join(t[1:])`, which is the suffix of `s` from that
`//` (inclusive) to the end. -/
def extract_version (s : String) : String × String :=
  (s, String.mk (bannerScan true s.data))

/-! ## Python-side values and errors -/

/-- The Python values that reach the binding as a `path` argument. -/
inductive PyVal : Type where
  | pyList (elems : List String)
  | pyStr (s : String)
  | pyInt (n : Int)
  | pyNone

def isList : PyVal → Bool
  | .pyList _ => true
  | _ => false

def pathElems : PyVal → List String
  | .pyList l => l
  | _ => []

/-- The exceptions the binding raises.  In the Python source the last
three are all `ConfigTreeError`; they are distinguished here by the raise
site, following the error kinds of spec section 7: `conflictError` is the
bare `ConfigTreeError()` raised when the destination of rename/copy
already exists, `notFoundError` carries the `"Path [...] doesn't exist"`
style message, and `engineError` carries the message obtained from the
engine via `get_error`. -/
inductive PyErr : Type where
  | typeError (msg : String)
  | valueError (msg : String)
  | conflictError
  | notFoundError (msg : String)
  | engineError (msg : String)

/-- Transcribed from the source (configtree.py lines 34-39): only
non-list arguments are rejected, with a `TypeError`. -/
def check_path (path : PyVal) : Except PyErr Unit :=
  match path with
  | .pyList _ => .ok ()
  | _ => .error (.typeError ("Expected a list"))

/-- `" ".join(...)`, the space-joining of path components performed by
every binding operation before the engine call. -/
def joinSp : List String → String
  | [] => ""
  | [x] => x
  | x :: xs => x ++ " " ++ joinSp xs

/-- Newline-joining of command lines. -/
def joinNL : List String → String
  | [] => ""
  | [x] => x
  | x :: xs => x ++ "\n" ++ joinNL xs

/-! ## Serialization (modelled from the spec, sections 4.2 and 6) -/

def leCharList : List Char → List Char → Bool
  | [], _ => true
  | _ :: _, [] => false
  | a :: as, b :: bs => if a = b then leCharList as bs else decide (a.toNat < b.toNat)

def insertSorted (v : String) : List String → List String
  | [] => [v]
  | x :: xs => if leCharList v.data x.data then v :: x :: xs else x :: insertSorted v xs

/-- Lexicographic sort of a value list; `to_string` with
`ordered_values = false` emits multi-value nodes sorted
(spec section 4.2). -/
def sortStrings (vs : List String) : List String :=
  vs.foldr insertSorted []

/-- Escape backslashes for quoted output; the escape rules of spec
section 4.1 name `\\` as the escape for a literal backslash.  The rules
provide no escape for an embedded double quote. -/
def escapeOut : List Char → List Char
  | [] => []
  | '\\' :: r => '\\' :: '\\' :: escapeOut r
  | c :: r => c :: escapeOut r

/-- A value is quoted whenever it contains whitespace, quotes, or braces
(spec section 6), or is empty. -/
def needsQuote (v : String) : Bool :=
  v.data.any (fun c => c = ' ' || c = '\t' || c = '\n' || c = '"' || c = '\x7b' || c = '\x7d')
    || v = ""

def quoteValue (v : String) : String :=
  if needsQuote v then "\"" ++ String.mk (escapeOut v.data) ++ "\"" else v

/-! ### The text format, as lines of tokens

The serializer and parser are modelled from the spec (sections 4.1, 4.2
and 6) through an intermediate list of lines: a line is `name`,
`name value`, `name {`, or `}`.  Indentation is omitted: it is whitespace
the grammar ignores. -/

/-- The lines of the brace text format. -/
inductive Line : Type where
  | val (name : String) (v : Option String)
  | openB (name : String)
  | closeB

/-- A token of the text format: an identifier or quoted string, an
opening brace, or a closing brace. -/
inductive Tok : Type where
  | ident (s : String)
  | openB
  | closeB

mutual
/-- Modelled from the spec: the lines a node serializes to — one
`name value` line per value (a bare `name` line for a valueless leaf) and
a `name { children }` block when there are children
(spec sections 4.1, 4.2 and 6). -/
def linesOfNode : Node → List Line
  | .mk n vs cs _ =>
    if cs.isEmpty then
      if vs.isEmpty then [Line.val n none] else vs.map (fun v => Line.val n (some v))
    else
      vs.map (fun v => Line.val n (some v))
        ++ (Line.openB n :: (linesOfList cs ++ [Line.closeB]))

def linesOfList : List Node → List Line
  | [] => []
  | c :: cs => linesOfNode c ++ linesOfList cs
end

/-- The characters of one line (without the terminating newline). -/
def lineCore : Line → List Char
  | .val n none => n.data
  | .val n (some v) => n.data ++ ' ' :: (quoteValue v).data
  | .openB n => n.data ++ [' ', '\x7b']
  | .closeB => ['\x7d']

def textOfLines : List Line → List Char
  | [] => []
  | l :: ls => lineCore l ++ '\n' :: textOfLines ls

mutual
/-- Sort every value list of a tree (the `ordered_values = false` mode of
`to_string`, spec section 4.2). -/
def sortValuesNode : Node → Node
  | .mk n vs cs t => .mk n (sortStrings vs) (sortValuesList cs) t

def sortValuesList : List Node → List Node
  | [] => []
  | c :: cs => sortValuesNode c :: sortValuesList cs
end

/-- Modelled from the spec: the engine `to_string` serializer
(spec sections 4.2 and 6); with `ordered = false` multi-value nodes are
emitted lexicographically sorted. -/
def renderList (ordered : Bool) (ns : List Node) : String :=
  String.mk (textOfLines (linesOfList (if ordered then ns else sortValuesList ns)))

/-! ### The parser (modelled from the spec, section 4.1) -/

/-- A character that may continue an unquoted identifier token. -/
def identChar (c : Char) : Bool :=
  !(c = ' ' || c = '\t' || c = '\n' || c = '"' || c = '\x7b' || c = '\x7d')

/-- Read the longest identifier prefix. -/
def readIdent : List Char → List Char × List Char
  | [] => ([], [])
  | c :: r =>
    if identChar c then
      let p := readIdent r
      (c :: p.1, p.2)
    else ([], c :: r)

/-- The parser-side meaning of a two-character escape sequence in a
quoted value (spec section 4.1). -/
def unescapeChar (d : Char) : Char :=
  if d = 'b' then '\x08'
  else if d = 'f' then '\x0c'
  else if d = 'n' then '\n'
  else if d = 'r' then '\x0d'
  else if d = 't' then '\t'
  else d

/-- Read a quoted value up to the closing quote, decoding escape
sequences; fails on an unterminated quote.  The flag records whether the
previous character was an escaping backslash. -/
def readQuotedAux : Bool → List Char → Option (List Char × List Char)
  | _, [] => none
  | true, d :: r => (readQuotedAux false r).map (fun p => (unescapeChar d :: p.1, p.2))
  | false, c :: r =>
    if c = '"' then some ([], r)
    else if c = '\\' then readQuotedAux true r
    else (readQuotedAux false r).map (fun p => (c :: p.1, p.2))

def readQuoted (l : List Char) : Option (List Char × List Char) :=
  readQuotedAux false l

/-- Tokenize one line (fuelled; the fuel only needs to exceed the number
of characters). -/
def toksF : Nat → List Char → Option (List Tok)
  | 0, _ => none
  | fuel + 1, [] => some []
  | fuel + 1, c :: r =>
    if c = ' ' ∨ c = '\t' ∨ c = '\n' then toksF fuel r
    else if c = '\x7b' then (toksF fuel r).map (Tok.openB :: ·)
    else if c = '\x7d' then (toksF fuel r).map (Tok.closeB :: ·)
    else if c = '"' then
      match readQuoted r with
      | none => none
      | some p => (toksF fuel p.2).map (Tok.ident (String.mk p.1) :: ·)
    else
      let p := readIdent (c :: r)
      (toksF fuel p.2).map (Tok.ident (String.mk p.1) :: ·)

def tokensOf (l : List Char) : Option (List Tok) :=
  toksF (l.length + 1) l

/-- Classify one tokenized line; anything else is a syntax error. -/
def lineOfToks : List Tok → Option Line
  | [Tok.ident n] => some (.val n none)
  | [Tok.ident n, Tok.ident v] => some (.val n (some v))
  | [Tok.ident n, Tok.openB] => some (.openB n)
  | [Tok.closeB] => some .closeB
  | _ => none

/-- Split a character stream at newlines. -/
def splitLines : List Char → List (List Char)
  | [] => [[]]
  | c :: r =>
    if c = '\n' then [] :: splitLines r
    else
      match splitLines r with
      | l :: ls => (c :: l) :: ls
      | [] => [[c]]

/-- Tokenize and classify every line, skipping blank lines. -/
def linesParse : List (List Char) → Option (List Line)
  | [] => some []
  | l :: ls => do
    let toks ← tokensOf l
    let rest ← linesParse ls
    match toks with
    | [] => pure rest
    | _ => do
      let ln ← lineOfToks toks
      pure (ln :: rest)

/-- Parse a maximal sequence of sibling nodes, stopping before a closing
brace; consecutive lines with the same leading name accumulate as
multi-value nodes (spec section 4.1).  Fuelled; the fuel only needs to
exceed the number of lines. -/
def parseItems : Nat → List Line → Option (List Node × List Line)
  | 0, _ => none
  | _ + 1, [] => some ([], [])
  | _ + 1, Line.closeB :: rest => some ([], Line.closeB :: rest)
  | fuel + 1, Line.val n v :: rest => do
    let p ← parseItems fuel rest
    match p.1 with
    | nd :: ns2 =>
      if nd.name = n then
        pure (Node.mk n (v.toList ++ nd.values) nd.children false :: ns2, p.2)
      else pure (Node.mk n v.toList [] false :: nd :: ns2, p.2)
    | [] => pure ([Node.mk n v.toList [] false], p.2)
  | fuel + 1, Line.openB n :: rest => do
    let p ← parseItems fuel rest
    match p.2 with
    | Line.closeB :: rest3 => do
      let q ← parseItems fuel rest3
      pure (Node.mk n [] p.1 false :: q.1, q.2)
    | _ => none

/-- Parse a full line list; leftover lines (an unmatched closing brace)
are a syntax error. -/
def parseLines (ls : List Line) : Option (List Node) :=
  match parseItems (ls.length + 1) ls with
  | some (ns, []) => some ns
  | _ => none

/-- Modelled from the spec: the engine `from_string` parser
(spec section 4.1); `none` is a parse failure. -/
def from_string (s : String) : Option (List Node) := do
  let ls ← linesParse (splitLines s.data)
  parseLines ls

mutual
/-- Modelled from the spec: the engine `to_commands` serializer emits one
line per leaf path as `<op> <space-joined path> [<value>]`
(spec section 4.2; the quoting of the value is immaterial here). -/
def cmdLinesNode (op : String) (pre : List String) : Node → List String
  | .mk n vs cs _ =>
    let path := pre ++ [n]
    let base := op ++ " " ++ joinSp path
    (if vs.isEmpty && cs.isEmpty then [base] else vs.map (fun v => base ++ " " ++ v))
      ++ cmdLinesList op path cs

def cmdLinesList (op : String) (pre : List String) : List Node → List String
  | [] => []
  | c :: cs => cmdLinesNode op pre c ++ cmdLinesList op pre cs
end

/-! ## Diff, trim and union (modelled from the spec, section 4.4) -/

/-- Modelled from the spec: the one-sided diff.  `diffOnly ls rs` collects
what is in `rs` but not (or changed) in `ls`: a name present only in `rs`
contributes its entire subtree; a name present in both contributes its
`rs`-values when the value lists differ and the recursive difference of
the children, and is dropped entirely when nothing differs
(spec section 4.4, diff). -/
def diffOnly (ls rs : List Node) : List Node :=
  rs.attach.filterMap fun ⟨rc, hrc⟩ =>
    match findNode rc.name ls with
    | none => some rc
    | some lc =>
      let ca := diffOnly lc.children rc.children
      if lc.values = rc.values ∧ ca.isEmpty = true then none
      else some (.mk rc.name (if lc.values = rc.values then [] else rc.values) ca rc.tag)
termination_by sizeOf rs
decreasing_by
  have h1 : sizeOf rc < sizeOf rs := List.sizeOf_lt_of_mem hrc
  have h2 : sizeOf rc.children < sizeOf rc := by
    cases rc with
    | mk n v c t => simp [Node.children]; omega
  omega

/-- Modelled from the spec: the common part of two trees; nodes present on
both sides are kept, with their values when identical on both sides, and
with the recursively common children (spec section 4.4 diff; the exact
tie-break shape for partially-changed composite nodes is left open by the
spec, section 9). -/
def diffInter (ls rs : List Node) : List Node :=
  rs.attach.filterMap fun ⟨rc, hrc⟩ =>
    match findNode rc.name ls with
    | none => none
    | some lc =>
      some (.mk rc.name (if lc.values = rc.values then rc.values else [])
        (diffInter lc.children rc.children) rc.tag)
termination_by sizeOf rs
decreasing_by
  have h1 : sizeOf rc < sizeOf rs := List.sizeOf_lt_of_mem hrc
  have h2 : sizeOf rc.children < sizeOf rc := by
    cases rc with
    | mk n v c t => simp [Node.children]; omega
  omega

/-- Modelled from the spec: `tree_union` deep-merges two trees; for a node
present in both, value lists are concatenated without deduplication, the
children are unioned recursively and the tag flags are or-ed; a node
present on only one side is copied whole (spec section 4.4, union). -/
def unionNodes (ls rs : List Node) : List Node :=
  (ls.attach.map fun ⟨lc, hlc⟩ =>
    match findNode lc.name rs with
    | none => lc
    | some rc =>
      Node.mk lc.name (lc.values ++ rc.values) (unionNodes lc.children rc.children)
        (lc.tag || rc.tag))
    ++ rs.filter (fun rc => (findNode rc.name ls).isNone)
termination_by sizeOf ls
decreasing_by
  have h1 : sizeOf lc < sizeOf ls := List.sizeOf_lt_of_mem hlc
  have h2 : sizeOf lc.children < sizeOf lc := by
    cases lc with
    | mk n v c t => simp [Node.children]; omega
  omega

/-- Modelled from the spec: `trim_tree` prunes a candidate deletion tree
against the post-change reference tree: a node that vanished from the
reference entirely is kept with its whole subtree, while a node that
still exists in the reference is kept only as a valueless step and its
children are trimmed recursively, so the generated delete commands target
exactly the entries that truly disappeared (spec sections 4.4 trim and 8,
concrete scenario). -/
def trimNodes (subs refs : List Node) : List Node :=
  subs.attach.map fun ⟨sn, hsn⟩ =>
    match findNode sn.name refs with
    | none => sn
    | some rn => Node.mk sn.name [] (trimNodes sn.children rn.children) sn.tag
termination_by sizeOf subs
decreasing_by
  have h1 : sizeOf sn < sizeOf subs := List.sizeOf_lt_of_mem hsn
  have h2 : sizeOf sn.children < sizeOf sn := by
    cases sn with
    | mk n v c t => simp [Node.children]; omega
  omega

/-- Modelled from the spec: the diff branches re-embed their content under
the restriction path, so that generated commands carry full paths; an
empty difference stays empty. -/
def wrapPath : List String → List Node → List Node
  | _, [] => []
  | [], ns => ns
  | p :: ps, ns => [.mk p [] (wrapPath ps ns) false]

/-- Children of the node at a path, or `[]` when the path does not
resolve. -/
def subChildren (path : List String) (ns : List Node) : List Node :=
  match getSub path ns with
  | none => []
  | some d => d.2.1

/-- Modelled from the spec: the engine `diff_tree` result, a tree whose
root carries the three branches `add`, `sub` and `inter` of the diff of
the two subtrees selected by the path (spec sections 4.4 and 4.5). -/
def diffFull (path : List String) (ls rs : List Node) : List Node :=
  let la := subChildren path ls
  let ra := subChildren path rs
  [ .mk "add" [] (wrapPath path (diffOnly la ra)) false,
    .mk "sub" [] (wrapPath path (diffOnly ra la)) false,
    .mk "inter" [] (wrapPath path (diffInter la ra)) false ]

/-! ## The ConfigTree object and its operations (transcribed from the
Python source) -/

/-- The binding-level tree: the engine tree plus the version comment the
binding carries separately (configtree.py lines 137-149). -/
structure ConfigTree : Type where
  root : List Node
  version : String

/-- Transcribed from the source (configtree.py lines 163-166): the engine
serialization followed by the version section, separated by one
newline. -/
def ConfigTree.to_string (t : ConfigTree) (ordered_values : Bool) : String :=
  renderList ordered_values t.root ++ "\n" ++ t.version

/-- Transcribed from the source (configtree.py lines 168-169). -/
def ConfigTree.to_commands (t : ConfigTree) (op : String) : String :=
  joinNL (cmdLinesList op [] t.root)

/-- Transcribed from the source (configtree.py lines 177-198): `set`
validates the path with `check_path`, then calls one of the three engine
set primitives, IGNORING their status code, and never raises afterwards. -/
def ConfigTree.set (t : ConfigTree) (path : PyVal) (value : Option String) (replace : Bool) :
    Except PyErr ConfigTree :=
  match check_path path with
  | .error e => .error e
  | .ok _ =>
    let ps := pathElems path
    match value with
    | none => .ok ⟨setValuelessIn ps t.root, t.version⟩
    | some v =>
      if replace then .ok ⟨setReplaceIn ps v t.root, t.version⟩
      else .ok ⟨setAddIn ps v t.root, t.version⟩

/-- Transcribed from the source (configtree.py lines 200-207): `delete`
validates the path, calls the engine delete primitive and ignores its
result; it has no failure branch of its own. -/
def ConfigTree.delete (t : ConfigTree) (path : PyVal) : Except PyErr ConfigTree :=
  match check_path path with
  | .error e => .error e
  | .ok _ => .ok ⟨deleteIn (pathElems path) t.root, t.version⟩

/-- Transcribed from the source (configtree.py lines 251-259): `exists`
returns whether the path resolves. -/
def ConfigTree.existsPath (t : ConfigTree) (path : PyVal) : Except PyErr Bool :=
  match check_path path with
  | .error e => .error e
  | .ok _ => .ok (existsIn (pathElems path) t.root)

/-- Transcribed from the source (configtree.py lines 218-232): `rename`
first checks whether a node at `path[:-1] + [new_name]` exists and raises
the bare `ConfigTreeError()` (a conflict) if so; only then does it call
the engine rename, raising the not-found `ConfigTreeError` on a nonzero
status. -/
def ConfigTree.rename (t : ConfigTree) (path : PyVal) (new_name : String) :
    Except PyErr ConfigTree :=
  match check_path path with
  | .error e => .error e
  | .ok _ =>
    let ps := pathElems path
    let new_path := ps.dropLast ++ [new_name]
    if existsIn new_path t.root then .error .conflictError
    else
      match renameIn ps new_name t.root with
      | some r => .ok ⟨r, t.version⟩
      | none => .error (.notFoundError ("Path [" ++ joinSp ps ++ "] does not exist"))

/-- Transcribed from the source (configtree.py lines 234-249): `copy`
first checks whether the destination exists and raises the bare
`ConfigTreeError()` (a conflict) if so; only then does it call the engine
copy, surfacing the engine diagnostic from `get_error` on failure. -/
def ConfigTree.copy (t : ConfigTree) (old_path new_path : PyVal) : Except PyErr ConfigTree :=
  match check_path old_path with
  | .error e => .error e
  | .ok _ =>
    match check_path new_path with
    | .error e => .error e
    | .ok _ =>
      let op := pathElems old_path
      let np := pathElems new_path
      if existsIn np t.root then .error .conflictError
      else
        match engineCopy op np t.root with
        | .error m => .error (.engineError m)
        | .ok r => .ok ⟨r, t.version⟩

/-! ## Module-level functions: show_diff, union, DiffTree -/

/-- A Python object passed where a `ConfigTree` is expected. -/
inductive PyObj : Type where
  | ct (t : ConfigTree)
  | strObj (s : String)
  | intObj (n : Int)

/-- Modelled from the spec: `ConfigTree(config_string = "\n")`, the empty
tree the module functions substitute for `None` arguments.  Its version
section is empty (`extract_version "\n"` keeps no banner, provable here)
and whitespace-only text parses to an empty root (spec section 4.1). -/
def emptyCT : ConfigTree := ⟨[], ""⟩

/-- The `left is None` / `right is None` replacement performed by
`show_diff`, `union` and `DiffTree.__init__` (configtree.py lines
326-329, 356-359, 391-394). -/
def fillNone : Option PyObj → PyObj
  | none => .ct emptyCT
  | some o => o

def asCT : PyObj → Option ConfigTree
  | .ct t => some t
  | _ => none

def isCT : PyObj → Bool
  | .ct _ => true
  | _ => false

/-- Modelled from the spec: the native `show_diff` fails (returning the
`#1@` marker, modelled as `none`) exactly when the path resolves in
neither tree; otherwise it produces the textual diff, or the
delete-then-add command script when `commands` is set (spec section
4.4, show_diff). -/
def engineShowDiff (commands : Bool) (path : List String) (ls rs : List Node) :
    Option String :=
  if existsIn path ls = false ∧ existsIn path rs = false then none
  else
    some
      (if commands then
        let fullN := diffFull path ls rs
        let subN := subChildren ["sub"] fullN
        let refN := if path = [] then rs else
          match getNodeAt path rs with
          | some nd => [nd]
          | none => []
        joinNL (cmdLinesList "delete" [] (trimNodes subN refN)
          ++ cmdLinesList "set" [] (subChildren ["add"] fullN))
      else renderList false (diffFull path ls rs))

/-- Transcribed from the source (configtree.py lines 325-353): `None`
arguments are replaced by the empty tree, non-ConfigTree arguments raise
`TypeError`, a non-empty path missing from BOTH trees raises
`ConfigTreeError` before the engine call, and an engine failure marker is
converted to a `ConfigTreeError` carrying the engine diagnostic. -/
def show_diff (left right : Option PyObj) (path : List String) (commands : Bool) :
    Except PyErr String :=
  match asCT (fillNone left), asCT (fillNone right) with
  | some l, some r =>
    if path ≠ [] ∧ existsIn path l.root = false ∧ existsIn path r.root = false then
      .error (.notFoundError ("Path " ++ joinSp path ++ " does not exist"))
    else
      match engineShowDiff commands path l.root r.root with
      | none => .error (.engineError ("diff failed"))
      | some s => .ok s
  | _, _ => .error (.typeError ("Arguments must be instances of ConfigTree"))

/-- Transcribed from the source (configtree.py lines 355-374): `None`
arguments are replaced by the empty tree, non-ConfigTree arguments raise
`TypeError`, and the engine union result is wrapped as a new tree (with
an empty version, as every address-constructed tree). -/
def union (left right : Option PyObj) : Except PyErr ConfigTree :=
  match asCT (fillNone left), asCT (fillNone right) with
  | some l, some r => .ok ⟨unionNodes l.root r.root, ""⟩
  | _, _ => .error (.typeError ("Arguments must be instances of ConfigTree"))

/-- The `DiffTree` object (configtree.py lines 389-433): the two input
trees and the computed diff trees.  The JSON mirror `self.dict` of the
full tree is not modelled. -/
structure DiffTree : Type where
  left : ConfigTree
  right : ConfigTree
  full : ConfigTree
  add : ConfigTree
  sub : ConfigTree
  inter : ConfigTree
  delete : ConfigTree

/-- Transcribed from the source (configtree.py lines 390-433):
`DiffTree.__init__` replaces `None` arguments by the empty tree, raises
`TypeError` for non-ConfigTree arguments, and for a non-empty path raises
`ConfigTreeError` when the path is missing from the LEFT tree, then when
it is missing from the RIGHT tree; afterwards it builds the full diff
tree, extracts the `add`/`sub`/`inter` subtrees, and trims the `sub` tree
against the right-hand subtree at the path (taken with its node) to
obtain the delete tree. -/
def DiffTree.make (left right : Option PyObj) (path : List String) :
    Except PyErr DiffTree :=
  match asCT (fillNone left), asCT (fillNone right) with
  | some l, some r =>
    if path ≠ [] ∧ existsIn path l.root = false then
      .error (.notFoundError ("Path " ++ joinSp path ++ " does not exist in lhs tree"))
    else if path ≠ [] ∧ existsIn path r.root = false then
      .error (.notFoundError ("Path " ++ joinSp path ++ " does not exist in rhs tree"))
    else
      let fullN := diffFull path l.root r.root
      let subN := subChildren ["sub"] fullN
      let refN := if path = [] then r.root else
        match getNodeAt path r.root with
        | some nd => [nd]
        | none => []
      .ok ⟨l, r, ⟨fullN, ""⟩, ⟨subChildren ["add"] fullN, ""⟩, ⟨subN, ""⟩,
        ⟨subChildren ["inter"] fullN, ""⟩, ⟨trimNodes subN refN, ""⟩⟩
  | _, _ => .error (.typeError ("Arguments must be instances of ConfigTree"))

/-- Transcribed from the source (configtree.py lines 435-438): the delete
commands of the trimmed delete tree, then one newline, then the set
commands of the added tree. -/
def DiffTree.to_commands (d : DiffTree) : String :=
  d.delete.to_commands "delete" ++ "\n" ++ d.add.to_commands "set"

/-- The position-based description of the version split used by the
amended claim C2: position `i` of `s` starts a line-initial `//` exactly
when `i` is at the beginning of a line (the start of the string — where
the flag `b` tells whether that counts — or just after a newline) and the
two characters `//` follow there. -/
def isBannerFrom (b : Bool) (s : List Char) (i : Nat) : Bool :=
  (if i = 0 then b else decide (s[i - 1]? = some '\n'))
    && decide (s[i]? = some '/') && decide (s[i + 1]? = some '/')

/-- The per-position description of the `escape_backslash` doubling used
by the amended claim C3: the character at position `i` is a doubled
backslash exactly when it is a backslash, is not preceded by a backslash
(the flag `b` stands for a virtual preceding backslash before position 0;
the binding starts with none), and the characters after it do not satisfy
the lookahead `b|f|n|r|t|\\[^bfnrt]`. -/
def doubledAtFrom (b : Bool) (s : List Char) (i : Nat) : Bool :=
  decide (s[i]? = some '\\')
    && (if i = 0 then !b else !decide (s[i - 1]? = some '\\'))
    && !laMatch (s.drop (i + 1))

/-- The literal reading of claim C3: scan greedily from the left; a
backslash followed by one of `b f n r t \\` forms a two-character escape
sequence and is kept unchanged (skipping both characters), any other
backslash is doubled, and all other characters are kept. -/
def claimEscape : List Char → List Char
  | [] => []
  | c :: rest =>
    if c = '\\' then
      match rest with
      | [] => [c, c]
      | d :: rest2 =>
        if escChar d = true ∨ d = '\\' then c :: d :: claimEscape rest2
        else c :: c :: claimEscape (d :: rest2)
    else c :: claimEscape rest

/-- Transcribed from the source (configtree.py lines 137-146):
construction from text extracts the version section, pre-escapes stray
backslashes in the WHOLE text, and hands the result to the engine parser;
the version section is attached to the resulting tree.  A parse failure
(a `ValueError` in Python) is `none`. -/
def ConfigTree.fromString (s : String) : Option ConfigTree :=
  match from_string (escape_backslash (extract_version s).1) with
  | some ns => some ⟨ns, (extract_version s).2⟩
  | none => none

def Node.withTag : Node → Bool → Node
  | .mk n v c _, t => .mk n v c t

/-- Modelled from the spec: the engine `set_tag` primitive marks the node
at the path as a tag parent and fails when the path does not resolve
(spec section 4.3). -/
def setTagIn : List String → List Node → Option (List Node)
  | [], _ => none
  | [p], ns =>
    if (findNode p ns).isSome then some (modFirst p (fun c => c.withTag true) ns) else none
  | p :: ps, ns =>
    match findNode p ns with
    | some c => (setTagIn ps c.children).map (fun r => modFirst p (fun d => d.withChildren r) ns)
    | none => none

/-- Transcribed from the source (configtree.py lines 307-315). -/
def ConfigTree.set_tag (t : ConfigTree) (path : PyVal) : Except PyErr ConfigTree :=
  match check_path path with
  | .error e => .error e
  | .ok _ =>
    match setTagIn (pathElems path) t.root with
    | some r => .ok ⟨r, t.version⟩
    | none => .error (.notFoundError ("Path [" ++ joinSp (pathElems path) ++ "] does not exist"))

/-- A name the text format can carry in a round trip: non-empty, free of
whitespace, quotes, braces, backslashes and slashes. -/
def safeNameChar (c : Char) : Bool :=
  !(c = ' ' || c = '\t' || c = '\n' || c = '"' || c = '\x7b' || c = '\x7d'
    || c = '\\' || c = '/')

def safeName (n : String) : Bool :=
  !n.data.isEmpty && n.data.all safeNameChar

/-- A value the text format can carry in a round trip: free of quotes,
backslashes and newlines (whitespace and braces are fine — the value is
quoted then). -/
def safeValue (v : String) : Bool :=
  v.data.all (fun c => !(c = '"' || c = '\\' || c = '\n'))

/-- A tree the brace text format can represent exactly: unique, safe
sibling names, safe values, no node with both values and children (the
grammar has no line form for that), and no tag flags (the grammar of
spec section 4.1 has no tag marker: only the JSON AST retains tags,
spec section 4.2). -/
inductive Printable : List Node → Prop where
  | mk (ns : List Node)
    (hnd : (ns.map Node.name).Nodup)
    (hn : ∀ c ∈ ns, safeName c.name = true)
    (hv : ∀ c ∈ ns, ∀ v ∈ c.values, safeValue v = true)
    (hx : ∀ c ∈ ns, c.values = [] ∨ c.children = [])
    (ht : ∀ c ∈ ns, c.tag = false)
    (hch : ∀ c ∈ ns, Printable c.children) : Printable ns

/-- The tokens the serializer produces for one line. -/
def toksOfLine : Line → List Tok
  | .val n none => [.ident n]
  | .val n (some v) => [.ident n, .ident v]
  | .openB n => [.ident n, .openB]
  | .closeB => [.closeB]

/-- A line whose names and values the text format can carry. -/
def goodLine : Line → Prop
  | .val n v => safeName n = true ∧ ∀ x ∈ v, safeValue x = true
  | .openB n => safeName n = true
  | .closeB => True

/-! ## Well-formed trees

The data model requires sibling names to be unique (spec section 3:
`name` is unique among its siblings); the engine maintains this
invariant. -/

/-- Sibling name lists are duplicate-free, recursively. -/
inductive WF : List Node → Prop where
  | mk (ns : List Node) (hnd : (ns.map Node.name).Nodup) (hch : ∀ c ∈ ns, WF c.children) :
    WF ns

theorem WF.child {ns : List Node} {c : Node} (h : WF ns) (hc : c ∈ ns) : WF c.children := by
  cases h with
  | mk _ hnd hch => exact hch c hc

theorem WF.tail {c : Node} {cs : List Node} (h : WF (c :: cs)) : WF cs := by
  cases h with
  | mk _ hnd hch =>
    rw [List.map_cons] at hnd
    exact WF.mk cs hnd.of_cons (fun d hd => hch d (List.mem_cons_of_mem c hd))

theorem WF.head_not_in_tail {c : Node} {cs : List Node} (h : WF (c :: cs)) :
    ∀ d ∈ cs, d.name ≠ c.name := by
  cases h with
  | mk _ hnd hch =>
    rw [List.map_cons] at hnd
    intro d hd he
    exact (List.nodup_cons.mp hnd).1 (he ▸ List.mem_map_of_mem Node.name hd)

/-! ## Basic lemmas about the tree primitives -/

theorem Node.withChildren_self (c : Node) : c.withChildren c.children = c := by
  cases c; rfl

theorem Node.name_withChildren (c : Node) (x : List Node) : (c.withChildren x).name = c.name := by
  cases c; rfl

theorem Node.children_withChildren (c : Node) (x : List Node) :
    (c.withChildren x).children = x := by
  cases c; rfl

theorem Node.withChildren_withChildren (c : Node) (x y : List Node) :
    (c.withChildren x).withChildren y = c.withChildren y := by
  cases c; rfl

/-! ### First-match sibling helpers -/

theorem findNode_isSome (p : String) (ns : List Node) :
    (findNode p ns).isSome = true ↔ ∃ c ∈ ns, c.name = p := by
  induction ns with
  | nil => simp [findNode]
  | cons c cs ih =>
    by_cases h : c.name = p
    · simp [findNode, h]
    · simp [findNode, h, ih]

theorem findNode_mem {p : String} {ns : List Node} {c : Node}
    (h : findNode p ns = some c) : c ∈ ns := by
  induction ns with
  | nil => simp [findNode] at h
  | cons d ds ih =>
    by_cases hd : d.name = p
    · simp only [findNode, hd, ite_true, Option.some.injEq] at h
      exact h ▸ List.mem_cons_self d ds
    · simp only [findNode, hd, ite_false] at h
      exact List.mem_cons_of_mem d (ih h)

theorem findNode_name {p : String} {ns : List Node} {c : Node}
    (h : findNode p ns = some c) : c.name = p := by
  induction ns with
  | nil => simp [findNode] at h
  | cons d ds ih =>
    by_cases hd : d.name = p
    · simp only [findNode, hd, ite_true, Option.some.injEq] at h
      exact h ▸ hd
    · simp only [findNode, hd, ite_false] at h
      exact ih h

theorem findNode_eq_none {p : String} {ns : List Node}
    (h : ∀ c ∈ ns, c.name ≠ p) : findNode p ns = none := by
  induction ns with
  | nil => rfl
  | cons d ds ih =>
    have hd := h d (List.mem_cons_self d ds)
    simp only [findNode, hd, ite_false]
    exact ih (fun c hc => h c (List.mem_cons_of_mem d hc))

theorem delFirst_noop {p : String} {ns : List Node} (h : findNode p ns = none) :
    delFirst p ns = ns := by
  induction ns with
  | nil => rfl
  | cons c cs ih =>
    by_cases hc : c.name = p
    · simp [findNode, hc] at h
    · simp only [findNode, hc, ite_false] at h
      simp [delFirst, hc, ih h]

theorem modFirst_noop {p : String} (f : Node → Node) {ns : List Node}
    (h : findNode p ns = none) : modFirst p f ns = ns := by
  induction ns with
  | nil => rfl
  | cons c cs ih =>
    by_cases hc : c.name = p
    · simp [findNode, hc] at h
    · simp only [findNode, hc, ite_false] at h
      simp [modFirst, hc, ih h]

theorem modFirst_self {p : String} (f : Node → Node) {ns : List Node} {c : Node}
    (h : findNode p ns = some c) (hf : f c = c) : modFirst p f ns = ns := by
  induction ns with
  | nil => simp [findNode] at h
  | cons d ds ih =>
    by_cases hd : d.name = p
    · simp only [findNode, hd, ite_true, Option.some.injEq] at h
      subst h
      simp [modFirst, hd, hf]
    · simp only [findNode, hd, ite_false] at h
      simp [modFirst, hd, ih h]

theorem modFirst_congr {p : String} (f g : Node → Node) {ns : List Node} {c : Node}
    (h : findNode p ns = some c) (hf : f c = g c) :
    modFirst p f ns = modFirst p g ns := by
  induction ns with
  | nil => rfl
  | cons d ds ih =>
    by_cases hd : d.name = p
    · simp only [findNode, hd, ite_true, Option.some.injEq] at h
      subst h
      simp [modFirst, hd, hf]
    · simp only [findNode, hd, ite_false] at h
      simp [modFirst, hd, ih h]

theorem modFirst_modFirst {p : String} (f g : Node → Node) (ns : List Node)
    (hf : ∀ d, (f d).name = d.name) :
    modFirst p g (modFirst p f ns) = modFirst p (fun d => g (f d)) ns := by
  induction ns with
  | nil => rfl
  | cons d ds ih =>
    by_cases hd : d.name = p
    · simp [modFirst, hd, hf d]
    · simp [modFirst, hd, ih]

theorem findNode_modFirst {p : String} (f : Node → Node) {ns : List Node} {c : Node}
    (h : findNode p ns = some c) (hf : (f c).name = c.name) :
    findNode p (modFirst p f ns) = some (f c) := by
  induction ns with
  | nil => simp [findNode] at h
  | cons d ds ih =>
    by_cases hd : d.name = p
    · simp only [findNode, hd, ite_true, Option.some.injEq] at h
      subst h
      simp [modFirst, hd, findNode, hf]
    · simp only [findNode, hd, ite_false] at h
      simp [modFirst, hd, findNode, ih h]

theorem findNode_delFirst {p : String} {ns : List Node}
    (hnd : (ns.map Node.name).Nodup) : findNode p (delFirst p ns) = none := by
  induction ns with
  | nil => rfl
  | cons d ds ih =>
    rw [List.map_cons] at hnd
    by_cases hd : d.name = p
    · have hni : d.name ∉ ds.map Node.name := (List.nodup_cons.mp hnd).1
      simp only [delFirst, hd, ite_true]
      refine findNode_eq_none (fun c hc he => hni ?_)
      rw [hd, ← he]
      exact List.mem_map_of_mem Node.name hc
    · simp [delFirst, hd, findNode, ih (List.nodup_cons.mp hnd).2]

/-! ### Path-level lemmas -/

/-- A one-component path resolves exactly when some sibling bears the
name. -/
theorem existsIn_single (p : String) (ns : List Node) :
    existsIn [p] ns = true ↔ ∃ c ∈ ns, c.name = p := by
  rw [← findNode_isSome]
  cases hf : findNode p ns <;> simp [existsIn, hf]

/-- Path resolution and node-data resolution agree. -/
theorem getSub_isSome (ps : List String) (ns : List Node) :
    (getSub ps ns).isSome = existsIn ps ns := by
  induction ps generalizing ns with
  | nil => simp [getSub, existsIn]
  | cons p ps ih =>
    cases ps with
    | nil => cases hf : findNode p ns <;> simp [getSub, existsIn, hf]
    | cons q qs => cases hf : findNode p ns <;> simp [getSub, existsIn, hf, ih]

/-- Deleting a path that does not resolve leaves the sibling list
unchanged (no well-formedness needed: deletion touches the same
first-match chain that resolution walks). -/
theorem deleteIn_noop {ps : List String} {ns : List Node}
    (h : existsIn ps ns = false) : deleteIn ps ns = ns := by
  induction ps generalizing ns with
  | nil => simp [existsIn] at h
  | cons p ps ih =>
    cases ps with
    | nil =>
      cases hf : findNode p ns with
      | none => simp [deleteIn, delFirst_noop hf]
      | some c => simp [existsIn, hf] at h
    | cons q qs =>
      cases hf : findNode p ns with
      | none => simp [deleteIn, modFirst_noop _ hf]
      | some c =>
        simp only [existsIn, hf] at h
        have hc : c.withChildren (deleteIn (q :: qs) c.children) = c := by
          rw [ih h, Node.withChildren_self]
        simp only [deleteIn]
        exact modFirst_self _ hf hc

/-- Deletion is idempotent on well-formed trees. -/
theorem deleteIn_idem {ps : List String} {ns : List Node} (hwf : WF ns) :
    deleteIn ps (deleteIn ps ns) = deleteIn ps ns := by
  induction ps generalizing ns with
  | nil => rfl
  | cons p ps ih =>
    cases ps with
    | nil =>
      have hnd : (ns.map Node.name).Nodup := by cases hwf with | mk _ hnd _ => exact hnd
      simp [deleteIn, delFirst_noop (findNode_delFirst hnd)]
    | cons q qs =>
      cases hf : findNode p ns with
      | none =>
        simp only [deleteIn]
        rw [modFirst_noop _ hf, modFirst_noop _ hf]
      | some c =>
        have hwfc : WF c.children := hwf.child (findNode_mem hf)
        simp only [deleteIn]
        rw [modFirst_modFirst _ _ _ (fun d => Node.name_withChildren d _)]
        refine modFirst_congr _ _ hf ?_
        rw [Node.children_withChildren, Node.withChildren_withChildren, ih hwfc]

/-- Newline-joining distributes over concatenation of non-empty line
lists. -/
theorem joinNL_append {xs ys : List String} (hx : xs ≠ []) (hy : ys ≠ []) :
    joinNL (xs ++ ys) = joinNL xs ++ "\n" ++ joinNL ys := by
  induction xs with
  | nil => exact absurd rfl hx
  | cons x xs ih =>
    cases xs with
    | nil =>
      cases ys with
      | nil => exact absurd rfl hy
      | cons y ys => simp [joinNL]
    | cons x2 xs2 =>
      have h2 := ih (by simp)
      show joinNL (x :: ((x2 :: xs2) ++ ys)) = _
      rw [show joinNL (x :: ((x2 :: xs2) ++ ys)) = x ++ "\n" ++ joinNL ((x2 :: xs2) ++ ys) from rfl]
      rw [h2]
      simp [joinNL, String.append_assoc]

theorem Node.name_withName (c : Node) (nn : String) : (c.withName nn).name = nn := by
  cases c; rfl

theorem mem_modFirst {p : String} (f : Node → Node) {ns : List Node} {c : Node}
    (h : findNode p ns = some c) : f c ∈ modFirst p f ns := by
  induction ns with
  | nil => simp [findNode] at h
  | cons d ds ih =>
    by_cases hd : d.name = p
    · simp only [findNode, hd, ite_true, Option.some.injEq] at h
      subst h
      simp [modFirst, hd]
    · simp only [findNode, hd, ite_false] at h
      simp only [modFirst, hd, ite_false]
      exact List.mem_cons_of_mem d (ih h)

theorem findNode_append_of_none {p : String} {ns : List Node} (ms : List Node)
    (h : findNode p ns = none) : findNode p (ns ++ ms) = findNode p ms := by
  induction ns with
  | nil => rfl
  | cons d ds ih =>
    by_cases hd : d.name = p
    · simp [findNode, hd] at h
    · simp only [findNode, hd, ite_false] at h
      simp [findNode, hd, ih h]

/-- The engine rename succeeds exactly on paths that resolve. -/
theorem renameIn_isSome (ps : List String) (nn : String) (ns : List Node) (hps : ps ≠ []) :
    (renameIn ps nn ns).isSome = existsIn ps ns := by
  induction ps generalizing ns with
  | nil => exact absurd rfl hps
  | cons p ps ih =>
    cases ps with
    | nil => cases hf : findNode p ns <;> simp [renameIn, existsIn, hf]
    | cons q qs =>
      cases hf : findNode p ns with
      | none => simp [renameIn, existsIn, hf]
      | some c =>
        rw [show existsIn (p :: q :: qs) ns = existsIn (q :: qs) c.children by
          simp [existsIn, hf]]
        rw [← ih c.children (by simp)]
        simp [renameIn, hf]

/-- After a successful rename, the renamed path resolves. -/
theorem renameIn_new_exists {ps : List String} {nn : String} {ns r : List Node}
    (hps : ps ≠ []) (h : renameIn ps nn ns = some r) :
    existsIn (ps.dropLast ++ [nn]) r = true := by
  induction ps generalizing ns r with
  | nil => exact absurd rfl hps
  | cons p ps ih =>
    cases ps with
    | nil =>
      cases hf : findNode p ns with
      | none => simp [renameIn, hf] at h
      | some c =>
        simp only [renameIn, hf, Option.isSome_some, ite_true, Option.some.injEq] at h
        subst h
        rw [show ([p].dropLast ++ [nn]) = [nn] from rfl]
        rw [existsIn_single]
        exact ⟨c.withName nn, mem_modFirst _ hf, Node.name_withName c nn⟩
    | cons q qs =>
      cases hf : findNode p ns with
      | none => simp [renameIn, hf] at h
      | some c =>
        simp only [renameIn, hf] at h
        cases hr : renameIn (q :: qs) nn c.children with
        | none => rw [hr] at h; simp at h
        | some rc =>
          rw [hr] at h
          simp only [Option.map_some', Option.some.injEq] at h
          subst h
          rw [show ((p :: q :: qs).dropLast ++ [nn])
              = p :: ((q :: qs).dropLast ++ [nn]) from rfl]
          have hfm := findNode_modFirst (fun d => d.withChildren rc) hf
            (Node.name_withChildren c rc)
          simp only [existsIn, hfm, Node.children_withChildren]
          exact ih (by simp) hr

/-- Grafting a node at a fresh (non-resolving, non-empty) path makes its
data resolvable at that path. -/
theorem getSub_placeAt {np : List String} {nd : Node} {ns : List Node}
    (hlast : np.getLast? = some nd.name) (hfresh : existsIn np ns = false) :
    getSub np (placeAt nd np ns) = some (nd.values, nd.children, nd.tag) := by
  induction np generalizing ns with
  | nil => simp at hlast
  | cons p ps ih =>
    cases ps with
    | nil =>
      simp only [List.getLast?_singleton, Option.some.injEq] at hlast
      have hf : findNode p ns = none := by
        cases hf : findNode p ns with
        | none => rfl
        | some c => simp [existsIn, hf] at hfresh
      have hput : putFirst p nd ns = ns ++ [nd] := by
        clear hfresh hlast ih
        induction ns with
        | nil => rfl
        | cons d ds ih2 =>
          by_cases hd : d.name = p
          · simp [findNode, hd] at hf
          · simp only [findNode, hd, ite_false] at hf
            simp [putFirst, hd, ih2 hf]
      simp only [placeAt, hput, getSub]
      rw [findNode_append_of_none _ hf]
      simp [findNode, hlast]
    | cons q qs =>
      cases hf : findNode p ns with
      | some c =>
        simp only [existsIn, hf] at hfresh
        have hlast2 : (q :: qs).getLast? = some nd.name := by
          rw [← List.getLast?_cons_cons]
          exact hlast
        simp only [placeAt, hf, Option.isSome_some, ite_true]
        have hfm := findNode_modFirst
          (fun d => d.withChildren (placeAt nd (q :: qs) d.children)) hf
          (Node.name_withChildren c _)
        rw [show getSub (p :: q :: qs)
            (modFirst p (fun d => d.withChildren (placeAt nd (q :: qs) d.children)) ns)
            = match findNode p (modFirst p
                (fun d => d.withChildren (placeAt nd (q :: qs) d.children)) ns) with
              | some c => getSub (q :: qs) c.children
              | none => none from rfl]
        rw [hfm]
        simp only [Node.children_withChildren]
        exact ih hlast2 hfresh
      | none =>
        have hlast2 : (q :: qs).getLast? = some nd.name := by
          rw [← List.getLast?_cons_cons]
          exact hlast
        simp only [placeAt, hf, Option.isSome_none, Bool.false_eq_true, ite_false]
        rw [show getSub (p :: q :: qs)
            (ns ++ [Node.mk p [] (placeAt nd (q :: qs) []) false])
            = match findNode p (ns ++ [Node.mk p [] (placeAt nd (q :: qs) []) false]) with
              | some c => getSub (q :: qs) c.children
              | none => none from rfl]
        rw [findNode_append_of_none _ hf]
        simp only [findNode, Node.name, ite_true]
        rw [show (Node.mk p [] (placeAt nd (q :: qs) []) false).children
            = placeAt nd (q :: qs) [] from rfl]
        exact ih hlast2 (by simp [existsIn, findNode])

/-! ## Small well-formed sample trees (shared by witnesses) -/

theorem WF_nil : WF ([] : List Node) :=
  WF.mk [] (by simp) (fun c hc => absurd hc (by simp))

theorem WF_leaf (n : String) (vs : List String) (tg : Bool) : WF [Node.mk n vs [] tg] := by
  refine WF.mk _ (by simp) ?_
  intro c hc
  rw [List.mem_singleton] at hc
  subst hc
  exact WF_nil

/-! ## Claims -/

/-- Claim C1, counterexample: `set` on the EMPTY list path is not
rejected: `check_path` only rejects non-lists, so `set([], "x")` runs to
completion without any validation error (the engine status is ignored)
and returns with the tree unmodified — the claim says a `ValidationError`
is raised. -/
theorem c1_counterexample :
    ConfigTree.set ⟨[Node.mk "a" [] [] false], ""⟩ (.pyList []) (some "x") true
      = .ok ⟨[Node.mk "a" [] [] false], ""⟩ := rfl

/-- Claim C1, amended: every tree operation taking a path rejects a
NON-LIST path argument with a `TypeError` before any tree access, but an
empty-list path passes `check_path`; in particular `set([], "x")` raises
nothing and leaves the tree unmodified. -/
theorem c1_amended (t : ConfigTree) (v : PyVal) (hv : isList v = false) (ps : List String) :
    ConfigTree.set t v (some ("x")) true = .error (.typeError ("Expected a list"))
    ∧ ConfigTree.delete t v = .error (.typeError ("Expected a list"))
    ∧ ConfigTree.rename t v "n" = .error (.typeError ("Expected a list"))
    ∧ ConfigTree.copy t v (.pyList ["n"]) = .error (.typeError ("Expected a list"))
    ∧ check_path (.pyList ps) = .ok ()
    ∧ ConfigTree.set t (.pyList []) (some ("x")) true = .ok t := by
  cases v with
  | pyList l => simp [isList] at hv
  | pyStr s => exact ⟨rfl, rfl, rfl, rfl, rfl, rfl⟩
  | pyInt n => exact ⟨rfl, rfl, rfl, rfl, rfl, rfl⟩
  | pyNone => exact ⟨rfl, rfl, rfl, rfl, rfl, rfl⟩

/-- Claim C1, witness for the amended theorem at a concrete non-list
argument and a concrete tree. -/
theorem c1_witness :
    isList (.pyStr "oops") = false
    ∧ (ConfigTree.set ⟨[], ""⟩ (.pyStr "oops") (some ("x")) true
        = .error (.typeError ("Expected a list"))
      ∧ ConfigTree.delete ⟨[], ""⟩ (.pyStr "oops") = .error (.typeError ("Expected a list"))
      ∧ ConfigTree.rename ⟨[], ""⟩ (.pyStr "oops") "n" = .error (.typeError ("Expected a list"))
      ∧ ConfigTree.copy ⟨[], ""⟩ (.pyStr "oops") (.pyList ["n"])
        = .error (.typeError ("Expected a list"))
      ∧ check_path (.pyList ["a"]) = .ok ()
      ∧ ConfigTree.set ⟨[], ""⟩ (.pyList []) (some ("x")) true = .ok ⟨[], ""⟩) :=
  ⟨rfl, c1_amended ⟨[], ""⟩ (.pyStr "oops") rfl ["a"]⟩

/-- Claim C5: for every list path, `delete` never raises: the binding has
no failure branch, deleting a non-existent path is a no-op, and deleting
twice equals deleting once (tree well-formedness, i.e. sibling-name
uniqueness per the data model, is assumed for idempotence). -/
theorem c5_delete_no_error_idempotent (t : ConfigTree) (ps : List String) (hwf : WF t.root) :
    ∃ t2 : ConfigTree, ConfigTree.delete t (.pyList ps) = .ok t2
      ∧ ConfigTree.delete t2 (.pyList ps) = .ok t2
      ∧ (existsIn ps t.root = false → t2 = t) := by
  refine ⟨⟨deleteIn ps t.root, t.version⟩, rfl, ?_, ?_⟩
  · show Except.ok (⟨deleteIn ps (deleteIn ps t.root), t.version⟩ : ConfigTree) = _
    rw [deleteIn_idem hwf]
  · intro h
    show (⟨deleteIn ps t.root, t.version⟩ : ConfigTree) = t
    rw [deleteIn_noop h]

/-- Claim C5, witness at a concrete tree and a path that does not
resolve. -/
theorem c5_witness :
    WF [Node.mk "a" [] [] false]
    ∧ ∃ t2 : ConfigTree,
        ConfigTree.delete ⟨[Node.mk "a" [] [] false], ""⟩ (.pyList ["b"]) = .ok t2
        ∧ ConfigTree.delete t2 (.pyList ["b"]) = .ok t2
        ∧ (existsIn ["b"] [Node.mk "a" [] [] false] = false
            → t2 = ⟨[Node.mk "a" [] [] false], ""⟩) :=
  ⟨WF_leaf "a" [] false,
    c5_delete_no_error_idempotent ⟨[Node.mk "a" [] [] false], ""⟩ ["b"] (WF_leaf "a" [] false)⟩

/-- Claim C6, counterexample: the conflict check tests the whole
destination path `path[:-1] + [new_name]`, which includes the renamed
node itself and takes priority over path resolution.  Renaming the sole
node `a` to its own name raises the conflict error although no SIBLING
named `a` exists and the path resolves (so the claim says it renames);
and renaming the non-resolving path `[a]` to `b` in a tree containing
only `b` raises the conflict error although the claim says
`NotFoundError`. -/
theorem c6_counterexample :
    ConfigTree.rename ⟨[Node.mk "a" [] [] false], ""⟩ (.pyList ["a"]) "a"
      = .error .conflictError
    ∧ existsIn ["a"] [Node.mk "a" [] [] false] = true
    ∧ ConfigTree.rename ⟨[Node.mk "b" [] [] false], ""⟩ (.pyList ["a"]) "b"
      = .error .conflictError
    ∧ existsIn ["a"] [Node.mk "b" [] [] false] = false :=
  ⟨rfl, rfl, rfl, rfl⟩

/-- Claim C6, amended: `rename(path, new_name)` raises the conflict error
whenever a node at `path[:-1] + [new_name]` exists — including the node
at `path` itself when `new_name` is its final component, and regardless of
whether `path` resolves, since this check comes first; otherwise it
raises the not-found error when `path` does not resolve; otherwise it
renames the final path component (afterwards the renamed path
resolves). -/
theorem c6_amended (t : ConfigTree) (ps : List String) (nn : String) (hps : ps ≠ []) :
    (existsIn (ps.dropLast ++ [nn]) t.root = true
      → ConfigTree.rename t (.pyList ps) nn = .error .conflictError)
    ∧ (existsIn (ps.dropLast ++ [nn]) t.root = false → existsIn ps t.root = false
      → ConfigTree.rename t (.pyList ps) nn
          = .error (.notFoundError ("Path [" ++ joinSp ps ++ "] does not exist")))
    ∧ (existsIn (ps.dropLast ++ [nn]) t.root = false → existsIn ps t.root = true
      → ∃ r : ConfigTree, ConfigTree.rename t (.pyList ps) nn = .ok r
          ∧ existsIn (ps.dropLast ++ [nn]) r.root = true) := by
  refine ⟨fun hc => ?_, fun hc hn => ?_, fun hc hn => ?_⟩
  · simp [ConfigTree.rename, check_path, pathElems, hc]
  · have hnone : renameIn ps nn t.root = none := by
      have h1 := renameIn_isSome ps nn t.root hps
      rw [hn] at h1
      exact Option.not_isSome_iff_eq_none.mp (by simp [h1])
    simp [ConfigTree.rename, check_path, pathElems, hc, hnone]
  · have h1 := renameIn_isSome ps nn t.root hps
    rw [hn] at h1
    obtain ⟨r, hr⟩ := Option.isSome_iff_exists.mp h1
    refine ⟨⟨r, t.version⟩, ?_, renameIn_new_exists hps hr⟩
    simp [ConfigTree.rename, check_path, pathElems, hc, hr]

/-- Claim C6, witness for the amended theorem: renaming `a` to `b` in a
tree holding only the leaf `a` succeeds and makes `b` resolvable. -/
theorem c6_witness :
    (["a"] : List String) ≠ []
    ∧ ((existsIn (["a"].dropLast ++ ["b"]) [Node.mk "a" [] [] false] = true
        → ConfigTree.rename ⟨[Node.mk "a" [] [] false], ""⟩ (.pyList ["a"]) "b"
            = .error .conflictError)
      ∧ (existsIn (["a"].dropLast ++ ["b"]) [Node.mk "a" [] [] false] = false
          → existsIn ["a"] [Node.mk "a" [] [] false] = false
          → ConfigTree.rename ⟨[Node.mk "a" [] [] false], ""⟩ (.pyList ["a"]) "b"
              = .error (.notFoundError ("Path [" ++ joinSp ["a"] ++ "] does not exist")))
      ∧ (existsIn (["a"].dropLast ++ ["b"]) [Node.mk "a" [] [] false] = false
          → existsIn ["a"] [Node.mk "a" [] [] false] = true
          → ∃ r : ConfigTree,
              ConfigTree.rename ⟨[Node.mk "a" [] [] false], ""⟩ (.pyList ["a"]) "b" = .ok r
              ∧ existsIn (["a"].dropLast ++ ["b"]) r.root = true)) :=
  ⟨by simp, c6_amended ⟨[Node.mk "a" [] [] false], ""⟩ ["a"] "b" (by simp)⟩

/-- Claim C7: `copy(old_path, new_path)` raises the conflict error
whenever the destination exists (this check comes first, before the
engine copy call, so the tree is unchanged); when the destination is
fresh and `old_path` does not resolve it surfaces the engine diagnostic
message; otherwise it succeeds and the data resolved at `new_path`
afterwards is exactly the data resolved at `old_path` (a deep copy). -/
theorem c7_copy_contract (t : ConfigTree) (op np : List String) :
    (existsIn np t.root = true
      → ConfigTree.copy t (.pyList op) (.pyList np) = .error .conflictError)
    ∧ (existsIn np t.root = false → existsIn op t.root = false
      → ∃ m, ConfigTree.copy t (.pyList op) (.pyList np) = .error (.engineError m)
          ∧ engineCopy op np t.root = .error m)
    ∧ (existsIn np t.root = false → existsIn op t.root = true
      → ∃ r : ConfigTree, ConfigTree.copy t (.pyList op) (.pyList np) = .ok r
          ∧ getSub np r.root = getSub op t.root) := by
  refine ⟨fun hc => ?_, fun hc hn => ?_, fun hc hn => ?_⟩
  · simp [ConfigTree.copy, check_path, pathElems, hc]
  · have hnp : np ≠ [] := by
      intro he
      rw [he] at hc
      simp [existsIn] at hc
    obtain ⟨l, hl⟩ := Option.isSome_iff_exists.mp (List.getLast?_isSome.mpr hnp)
    have hgs : getSub op t.root = none := by
      have h1 := getSub_isSome op t.root
      rw [hn] at h1
      exact Option.not_isSome_iff_eq_none.mp (by simp [h1])
    refine ⟨"Path [" ++ String.intercalate " " op ++ "] does not exist", ?_, ?_⟩
    · simp [ConfigTree.copy, check_path, pathElems, hc, engineCopy, hl, hgs]
    · simp [engineCopy, hl, hgs]
  · have hnp : np ≠ [] := by
      intro he
      rw [he] at hc
      simp [existsIn] at hc
    obtain ⟨l, hl⟩ := Option.isSome_iff_exists.mp (List.getLast?_isSome.mpr hnp)
    have h1 := getSub_isSome op t.root
    rw [hn] at h1
    obtain ⟨d, hd⟩ := Option.isSome_iff_exists.mp h1
    refine ⟨⟨placeAt (Node.mk l d.1 d.2.1 d.2.2) np t.root, t.version⟩, ?_, ?_⟩
    · simp [ConfigTree.copy, check_path, pathElems, hc, engineCopy, hl, hd]
    · have hres : getSub np (placeAt (Node.mk l d.1 d.2.1 d.2.2) np t.root)
          = some ((Node.mk l d.1 d.2.1 d.2.2).values,
              (Node.mk l d.1 d.2.1 d.2.2).children, (Node.mk l d.1 d.2.1 d.2.2).tag) :=
        getSub_placeAt hl hc
      rw [show (⟨placeAt (Node.mk l d.1 d.2.1 d.2.2) np t.root, t.version⟩ :
          ConfigTree).root = placeAt (Node.mk l d.1 d.2.1 d.2.2) np t.root from rfl]
      rw [hres, hd]
      rfl

/-- Claim C7, witness: copying the leaf `a` (holding value `v`) to the
fresh destination `b` succeeds, and `b` then resolves to the same data as
`a`. -/
theorem c7_witness :
    existsIn ["b"] [Node.mk "a" ["v"] [] false] = false
    ∧ existsIn ["a"] [Node.mk "a" ["v"] [] false] = true
    ∧ ∃ r : ConfigTree,
        ConfigTree.copy ⟨[Node.mk "a" ["v"] [] false], ""⟩ (.pyList ["a"]) (.pyList ["b"])
          = .ok r
        ∧ getSub ["b"] r.root = getSub ["a"] [Node.mk "a" ["v"] [] false] :=
  ⟨rfl, rfl,
    (c7_copy_contract ⟨[Node.mk "a" ["v"] [] false], ""⟩ ["a"] ["b"]).2.2 rfl rfl⟩

/-- Claim C4, counterexample: `DiffTree` construction demands the path in
BOTH trees.  With the path `[a]` resolving in the left tree but not in
the right one, the claim says the diff is computed, yet the constructor
raises the not-found error for the right-hand side. -/
theorem c4_counterexample :
    existsIn ["a"] [Node.mk "a" [] [] false] = true
    ∧ DiffTree.make (some (.ct ⟨[Node.mk "a" [] [] false], ""⟩)) (some (.ct ⟨[], ""⟩)) ["a"]
        = .error (.notFoundError ("Path " ++ joinSp ["a"] ++ " does not exist in rhs tree")) :=
  ⟨rfl, rfl⟩

/-- Claim C4, amended: for a non-empty path, `show_diff` fails exactly
when the path resolves in NEITHER tree (the diff is computed when it
resolves in at least one), while `DiffTree` construction fails exactly
when the path fails to resolve in the left tree OR in the right tree (it
requires the path in both). -/
theorem c4_amended (l r : ConfigTree) (path : List String) (c : Bool) (hp : path ≠ []) :
    ((∃ e, show_diff (some (.ct l)) (some (.ct r)) path c = .error e)
      ↔ (existsIn path l.root = false ∧ existsIn path r.root = false))
    ∧ ((∃ e, DiffTree.make (some (.ct l)) (some (.ct r)) path = .error e)
      ↔ (existsIn path l.root = false ∨ existsIn path r.root = false)) := by
  cases hl : existsIn path l.root <;> cases hr : existsIn path r.root <;>
    simp [show_diff, DiffTree.make, fillNone, asCT, engineShowDiff, hp, hl, hr]

/-- Claim C4, witness for the amended theorem at a concrete pair of trees
and the non-empty path `[a]` resolving only on the left. -/
theorem c4_witness :
    (["a"] : List String) ≠ []
    ∧ (((∃ e, show_diff (some (.ct ⟨[Node.mk "a" [] [] false], ""⟩))
            (some (.ct ⟨[], ""⟩)) ["a"] false = .error e)
        ↔ (existsIn ["a"] [Node.mk "a" [] [] false] = false
            ∧ existsIn ["a"] ([] : List Node) = false))
      ∧ ((∃ e, DiffTree.make (some (.ct ⟨[Node.mk "a" [] [] false], ""⟩))
            (some (.ct ⟨[], ""⟩)) ["a"] = .error e)
        ↔ (existsIn ["a"] [Node.mk "a" [] [] false] = false
            ∨ existsIn ["a"] ([] : List Node) = false))) :=
  ⟨by simp, c4_amended ⟨[Node.mk "a" [] [] false], ""⟩ ⟨[], ""⟩ ["a"] false (by simp)⟩

/-- Claim C8: `DiffTree.to_commands` is the delete-command lines of the
trimmed delete tree followed by the set-command lines of the added tree,
in that relative order, with all lines joined by single newlines. -/
theorem c8_to_commands_order (d : DiffTree)
    (hd : cmdLinesList "delete" [] d.delete.root ≠ [])
    (ha : cmdLinesList "set" [] d.add.root ≠ []) :
    DiffTree.to_commands d
      = joinNL (cmdLinesList "delete" [] d.delete.root
          ++ cmdLinesList "set" [] d.add.root) := by
  rw [joinNL_append hd ha]
  rfl

/-- Claim C8, witness at a concrete `DiffTree` whose delete tree holds
the leaf `a` and whose added tree holds the leaf `b` with value `v`. -/
theorem c8_witness :
    cmdLinesList "delete" [] [Node.mk "a" [] [] false] ≠ []
    ∧ cmdLinesList "set" [] [Node.mk "b" ["v"] [] false] ≠ []
    ∧ DiffTree.to_commands
        ⟨⟨[], ""⟩, ⟨[], ""⟩, ⟨[], ""⟩, ⟨[Node.mk "b" ["v"] [] false], ""⟩, ⟨[], ""⟩,
          ⟨[], ""⟩, ⟨[Node.mk "a" [] [] false], ""⟩⟩
      = joinNL (cmdLinesList "delete" [] [Node.mk "a" [] [] false]
          ++ cmdLinesList "set" [] [Node.mk "b" ["v"] [] false]) :=
  ⟨by decide, by decide,
    c8_to_commands_order
      ⟨⟨[], ""⟩, ⟨[], ""⟩, ⟨[], ""⟩, ⟨[Node.mk "b" ["v"] [] false], ""⟩, ⟨[], ""⟩,
        ⟨[], ""⟩, ⟨[Node.mk "a" [] [] false], ""⟩⟩ (by decide) (by decide)⟩

/-- Claim C10: in `show_diff`, `union` and `DiffTree` construction, a
`None` argument is replaced by the empty tree obtained from parsing a
single newline (whose version section is empty, as the last conjunct
shows for the version-extraction step), and any non-None argument that is
not a ConfigTree raises a `TypeError`. -/
theorem c10_none_defaults (a r2 : Option PyObj) (o : PyObj) (ho : isCT o = false)
    (path : List String) (c : Bool) :
    show_diff none r2 path c = show_diff (some (.ct emptyCT)) r2 path c
    ∧ show_diff a none path c = show_diff a (some (.ct emptyCT)) path c
    ∧ union none r2 = union (some (.ct emptyCT)) r2
    ∧ union a none = union a (some (.ct emptyCT))
    ∧ DiffTree.make none r2 path = DiffTree.make (some (.ct emptyCT)) r2 path
    ∧ DiffTree.make a none path = DiffTree.make a (some (.ct emptyCT)) path
    ∧ show_diff (some o) r2 path c
        = .error (.typeError ("Arguments must be instances of ConfigTree"))
    ∧ union (some o) r2 = .error (.typeError ("Arguments must be instances of ConfigTree"))
    ∧ DiffTree.make (some o) r2 path
        = .error (.typeError ("Arguments must be instances of ConfigTree"))
    ∧ show_diff a (some o) path c
        = .error (.typeError ("Arguments must be instances of ConfigTree"))
    ∧ union a (some o) = .error (.typeError ("Arguments must be instances of ConfigTree"))
    ∧ DiffTree.make a (some o) path
        = .error (.typeError ("Arguments must be instances of ConfigTree"))
    ∧ extract_version "\n" = ("\n", "") := by
  refine ⟨rfl, rfl, rfl, rfl, rfl, rfl, ?_, ?_, ?_, ?_, ?_, ?_, rfl⟩ <;>
    cases o with
    | ct t => simp [isCT] at ho
    | strObj s2 =>
      first
      | rfl
      | cases a with
        | none => rfl
        | some o2 => cases o2 <;> rfl
    | intObj n2 =>
      first
      | rfl
      | cases a with
        | none => rfl
        | some o2 => cases o2 <;> rfl

/-- Claim C10, witness at a concrete non-ConfigTree argument. -/
theorem c10_witness :
    isCT (.strObj "zz") = false
    ∧ (show_diff none (some (.strObj "zz")) ["p"] false
        = show_diff (some (.ct emptyCT)) (some (.strObj "zz")) ["p"] false
      ∧ show_diff (some (.strObj "zz")) none ["p"] false
        = show_diff (some (.strObj "zz")) (some (.ct emptyCT)) ["p"] false
      ∧ union none (some (.strObj "zz")) = union (some (.ct emptyCT)) (some (.strObj "zz"))
      ∧ union (some (.strObj "zz")) none = union (some (.strObj "zz")) (some (.ct emptyCT))
      ∧ DiffTree.make none (some (.strObj "zz")) ["p"]
        = DiffTree.make (some (.ct emptyCT)) (some (.strObj "zz")) ["p"]
      ∧ DiffTree.make (some (.strObj "zz")) none ["p"]
        = DiffTree.make (some (.strObj "zz")) (some (.ct emptyCT)) ["p"]
      ∧ show_diff (some (.strObj "zz")) (some (.strObj "zz")) ["p"] false
        = .error (.typeError ("Arguments must be instances of ConfigTree"))
      ∧ union (some (.strObj "zz")) (some (.strObj "zz"))
        = .error (.typeError ("Arguments must be instances of ConfigTree"))
      ∧ DiffTree.make (some (.strObj "zz")) (some (.strObj "zz")) ["p"]
        = .error (.typeError ("Arguments must be instances of ConfigTree"))
      ∧ show_diff (some (.strObj "zz")) (some (.strObj "zz")) ["p"] false
        = .error (.typeError ("Arguments must be instances of ConfigTree"))
      ∧ union (some (.strObj "zz")) (some (.strObj "zz"))
        = .error (.typeError ("Arguments must be instances of ConfigTree"))
      ∧ DiffTree.make (some (.strObj "zz")) (some (.strObj "zz")) ["p"]
        = .error (.typeError ("Arguments must be instances of ConfigTree"))
      ∧ extract_version "\n" = ("\n", "")) :=
  ⟨rfl, c10_none_defaults (some (.strObj "zz")) (some (.strObj "zz")) (.strObj "zz") rfl
    ["p"] false⟩

theorem isBannerFrom_succ (b : Bool) (c : Char) (rest : List Char) (i : Nat) :
    isBannerFrom b (c :: rest) (i + 1) = isBannerFrom (decide (c = '\n')) rest i := by
  cases i with
  | zero => simp [isBannerFrom]
  | succ j => simp [isBannerFrom]

/-- The banner scan keeps exactly the suffix starting at the FIRST
line-initial `//` of the string (and nothing when there is none). -/
theorem bannerScan_eq (s : List Char) (b : Bool) :
    bannerScan b s
      = (match (List.range s.length).find? (isBannerFrom b s) with
        | some i => s.drop i
        | none => []) := by
  induction s generalizing b with
  | nil => simp [bannerScan]
  | cons c rest ih =>
    rw [List.length_cons, List.range_succ_eq_map]
    by_cases h0 : b = true ∧ c = '/' ∧ rest[0]? = some '/'
    · have hb : isBannerFrom b (c :: rest) 0 = true := by
        obtain ⟨h1, h2, h3⟩ := h0
        simp [isBannerFrom, h1, h2, h3]
      rw [List.find?_cons_of_pos _ hb]
      simp [bannerScan, h0]
    · have hb : isBannerFrom b (c :: rest) 0 = false := by
        rw [Bool.eq_false_iff]
        intro hx
        apply h0
        simp only [isBannerFrom, Bool.and_eq_true, decide_eq_true_eq] at hx
        refine ⟨?_, ?_, ?_⟩
        · have := hx.1.1
          simpa using this
        · have := hx.1.2
          simpa using this
        · have := hx.2
          simpa using this
      rw [List.find?_cons_of_neg _ (by simp [hb])]
      rw [List.find?_map]
      have hfun : (isBannerFrom b (c :: rest)) ∘ Nat.succ
          = isBannerFrom (decide (c = '\n')) rest := by
        funext i
        exact isBannerFrom_succ b c rest i
      rw [hfun]
      rw [show bannerScan b (c :: rest) = bannerScan (decide (c = '\n')) rest by
        simp [bannerScan, h0]]
      rw [ih]
      cases (List.range rest.length).find? (isBannerFrom (decide (c = '\n')) rest) with
      | none => simp
      | some i => simp

/-- Claim C2, counterexample: with a leading `//` line, `extract_version`
returns the WHOLE original string as the part handed to the structural
parser (the banner is not excluded from it), and the captured version
section is the whole remainder of the string from the first `//` line on
(structural text included), not the leading comment block alone. -/
theorem c2_counterexample :
    extract_version "// v\nx \x7b\n\x7d\n"
      = ("// v\nx \x7b\n\x7d\n", "// v\nx \x7b\n\x7d\n")
    ∧ "// v\nx \x7b\n\x7d\n" ≠ "x \x7b\n\x7d\n"
    ∧ "// v\nx \x7b\n\x7d\n" ≠ "// v\n" :=
  ⟨rfl, by decide, by decide⟩

/-- Claim C2, amended: when a ConfigTree is constructed from text, the
version comment is the suffix of the input starting at the FIRST line
beginning with `//` (anywhere in the text, empty when there is none),
while the text handed to the structural parser is the ENTIRE input,
version lines included; `to_string` re-appends the version comment after
the serialized tree, separated by a single newline. -/
theorem c2_amended (s : String) (t : ConfigTree) (ordered : Bool) :
    extract_version s
      = (s, String.mk
          (match (List.range s.data.length).find? (isBannerFrom true s.data) with
          | some i => s.data.drop i
          | none => []))
    ∧ ConfigTree.to_string t ordered = renderList ordered t.root ++ "\n" ++ t.version := by
  constructor
  · show (s, String.mk (bannerScan true s.data)) = _
    rw [bannerScan_eq]
  · rfl

theorem doubledAtFrom_succ (b : Bool) (c : Char) (rest : List Char) (i : Nat) :
    doubledAtFrom b (c :: rest) (i + 1) = doubledAtFrom (decide (c = '\\')) rest i := by
  cases i with
  | zero => simp [doubledAtFrom]
  | succ j => simp [doubledAtFrom]

/-- The scan of the `escape_backslash` regular expression equals its
per-position description. -/
theorem ebScan_eq (s : List Char) (b : Bool) :
    ebScan b s
      = ((List.range s.length).map (fun i =>
          match s[i]? with
          | none => []
          | some c => if doubledAtFrom b s i = true then [c, c] else [c])).flatten := by
  induction s generalizing b with
  | nil => rfl
  | cons c rest ih =>
    rw [List.length_cons, List.range_succ_eq_map, List.map_cons, List.flatten_cons,
      List.map_map]
    have hfun : ((fun i =>
          match (c :: rest)[i]? with
          | none => []
          | some d => if doubledAtFrom b (c :: rest) i = true then [d, d] else [d])
            ∘ Nat.succ)
        = (fun i =>
          match rest[i]? with
          | none => []
          | some d =>
            if doubledAtFrom (decide (c = '\\')) rest i = true then [d, d] else [d]) := by
      funext i
      show (match (c :: rest)[i + 1]? with
          | none => []
          | some d => if doubledAtFrom b (c :: rest) (i + 1) = true then [d, d] else [d]) = _
      rw [List.getElem?_cons_succ, doubledAtFrom_succ]
    rw [hfun, ← ih]
    show ebScan b (c :: rest)
      = (match (c :: rest)[0]? with
        | none => []
        | some d => if doubledAtFrom b (c :: rest) 0 = true then [d, d] else [d])
        ++ ebScan (decide (c = '\\')) rest
    rw [show ebScan b (c :: rest)
        = (if c = '\\' ∧ b = false ∧ laMatch rest = false then [c, c] else [c])
          ++ ebScan (decide (c = '\\')) rest from rfl]
    congr 1
    rw [List.getElem?_cons_zero]
    cases b <;> by_cases h1 : c = '\\' <;> by_cases h3 : laMatch rest = true <;>
      simp [doubledAtFrom, h1, h3]

/-- Claim C3, counterexample: on the two-character input consisting of
the escape sequence backslash-backslash alone, the claimed behaviour is
to leave it unchanged, but `escape_backslash` doubles the first of the
two backslashes (its lookahead only spares a backslash pair when a
character OUTSIDE `b f n r t` follows it), producing three
backslashes. -/
theorem c3_counterexample :
    claimEscape ("\\\\".data) = "\\\\".data
    ∧ escape_backslash "\\\\" = "\\\\\\"
    ∧ ("\\\\\\" : String) ≠ "\\\\" :=
  ⟨rfl, rfl, by decide⟩

/-- Claim C3, amended: `escape_backslash` doubles exactly those
backslashes that are not preceded by a backslash and are not followed by
one of `b f n r t`, nor by a backslash whose following character is
outside `b f n r t`; every other character is kept as it is.  (Hence a
backslash standing directly before a two-character escape sequence such
as `\\b`, or before a backslash at the end of the input, is itself
doubled even though the claim as stated would leave it alone.) -/
theorem c3_amended (s : String) :
    escape_backslash s
      = String.mk (((List.range s.data.length).map (fun i =>
          match s.data[i]? with
          | none => []
          | some c => if doubledAtFrom false s.data i = true then [c, c] else [c])).flatten) := by
  show String.mk (ebScan false s.data) = _
  rw [ebScan_eq]

/-! ## Claim C9: the text round trip -/

theorem Printable.list_tail {c : Node} {cs : List Node} (h : Printable (c :: cs)) : Printable cs := by
  cases h with
  | mk _ hnd hn hv hx ht hch =>
    rw [List.map_cons] at hnd
    exact Printable.mk cs hnd.of_cons
      (fun d hd => hn d (List.mem_cons_of_mem c hd))
      (fun d hd => hv d (List.mem_cons_of_mem c hd))
      (fun d hd => hx d (List.mem_cons_of_mem c hd))
      (fun d hd => ht d (List.mem_cons_of_mem c hd))
      (fun d hd => hch d (List.mem_cons_of_mem c hd))

theorem Printable.head_children {c : Node} {cs : List Node} (h : Printable (c :: cs)) :
    Printable c.children := by
  cases h with
  | mk _ _ _ _ _ _ hch => exact hch c (List.mem_cons_self c cs)

theorem Printable.head_name_not_in_tail {c : Node} {cs : List Node} (h : Printable (c :: cs)) :
    ∀ d ∈ cs, d.name ≠ c.name := by
  cases h with
  | mk _ hnd _ _ _ _ _ =>
    rw [List.map_cons] at hnd
    intro d hd he
    exact (List.nodup_cons.mp hnd).1 (he ▸ List.mem_map_of_mem Node.name hd)

theorem parseVals_aux (F : Nat) (n : String) (ns2 : List Node) (restL T : List Line)
    (hT : ∀ f, f < F → T.length < f → parseItems f T = some (ns2, restL))
    (hhead : ∀ nd2 ∈ ns2, nd2.name ≠ n) :
    ∀ vs fuel, vs ≠ [] → fuel ≤ F → vs.length + T.length < fuel →
    parseItems fuel (vs.map (fun v => Line.val n (some v)) ++ T)
      = some (Node.mk n vs [] false :: ns2, restL) := by
  intro vs
  induction vs with
  | nil => intro fuel h; exact absurd rfl h
  | cons v vrest ih =>
    intro fuel _ hF hlt
    cases fuel with
    | zero => omega
    | succ f =>
      cases vrest with
      | nil =>
        have hTf : parseItems f T = some (ns2, restL) := by
          refine hT f (by omega) (by simp at hlt; omega)
        simp only [List.map_cons, List.map_nil, List.nil_append, List.cons_append,
          parseItems, hTf, Option.some_bind]
        cases ns2 with
        | nil => simp [hTf]
        | cons nd2 ns3 =>
          have hne : nd2.name ≠ n := hhead nd2 (List.mem_cons_self nd2 ns3)
          simp [hTf, hne]
      | cons v2 vs2 =>
        have hih : parseItems f ((v2 :: vs2).map (fun v => Line.val n (some v)) ++ T)
            = some (Node.mk n (v2 :: vs2) [] false :: ns2, restL) := by
          refine ih f (by simp) (by omega) (by simp at hlt ⊢; omega)
        simp only [List.map_cons, List.cons_append] at hih ⊢
        simp [parseItems, hih, Node.name, Node.values, Node.children]

theorem parseItems_inv : ∀ fuel ns rest, Printable ns →
    (rest = [] ∨ ∃ r2, rest = Line.closeB :: r2) →
    (linesOfList ns).length + rest.length < fuel →
    parseItems fuel (linesOfList ns ++ rest) = some (ns, rest) := by
  intro fuel
  induction fuel using Nat.strong_induction_on with
  | _ fuel IH =>
    intro ns rest hp hrest hlt
    cases ns with
    | nil =>
      rcases hrest with h | ⟨r2, h⟩ <;> subst h <;>
        (cases fuel with
         | zero => omega
         | succ f => simp [linesOfList, parseItems])
    | cons nd ns2 =>
      obtain ⟨n, vs, cs, tg⟩ := nd
      have htail : Printable ns2 := hp.list_tail
      have htg : tg = false := by
        cases hp with
        | mk _ _ _ _ _ ht _ =>
          have := ht _ (List.mem_cons_self _ _)
          simpa [Node.tag] using this
      have hhead : ∀ nd2 ∈ ns2, nd2.name ≠ n := by
        intro nd2 h2
        have := hp.head_name_not_in_tail nd2 h2
        simpa [Node.name] using this
      subst htg
      cases hcs : cs with
      | nil =>
        subst hcs
        cases hvs : vs with
        | nil =>
          subst hvs
          cases fuel with
          | zero => omega
          | succ f =>
            have hlin : linesOfList (Node.mk n [] [] false :: ns2)
                = Line.val n none :: linesOfList ns2 := by
              simp [linesOfList, linesOfNode]
            rw [hlin] at hlt ⊢
            have hT : parseItems f (linesOfList ns2 ++ rest) = some (ns2, rest) := by
              refine IH f (by omega) ns2 rest htail hrest ?_
              simp at hlt
              omega
            cases ns2 with
            | nil => simp [parseItems, hT]
            | cons nd2 ns3 =>
              have hne : nd2.name ≠ n := hhead nd2 (List.mem_cons_self nd2 ns3)
              simp [parseItems, hT, hne]
        | cons v vrest =>
          subst hvs
          have hlin : linesOfList (Node.mk n (v :: vrest) [] false :: ns2)
              = (v :: vrest).map (fun x => Line.val n (some x)) ++ linesOfList ns2 := by
            simp [linesOfList, linesOfNode]
          rw [hlin] at hlt ⊢
          rw [List.append_assoc]
          have hT : ∀ f, f < fuel → (linesOfList ns2 ++ rest).length < f →
              parseItems f (linesOfList ns2 ++ rest) = some (ns2, rest) := by
            intro f hf hlen
            refine IH f hf ns2 rest htail hrest ?_
            rw [List.length_append] at hlen
            exact hlen
          refine parseVals_aux fuel n ns2 rest (linesOfList ns2 ++ rest) hT hhead
            (v :: vrest) fuel (by simp) (le_refl fuel) ?_
          simp only [List.length_append, List.length_map, List.length_cons] at hlt ⊢
          omega
      | cons c1 cs2 =>
        have hvs : vs = [] := by
          cases hp with
          | mk _ _ _ _ hx _ _ =>
            have := hx _ (List.mem_cons_self _ _)
            rcases this with h | h
            · simpa [Node.values] using h
            · rw [hcs] at h
              simp [Node.children] at h
        subst hvs
        subst hcs
        cases fuel with
        | zero => omega
        | succ f =>
          have hlin : linesOfList (Node.mk n [] (c1 :: cs2) false :: ns2)
              = Line.openB n :: ((linesOfList (c1 :: cs2) ++ [Line.closeB])
                ++ linesOfList ns2) := by
            simp [linesOfList, linesOfNode]
          rw [hlin] at hlt ⊢
          have hchild : Printable (c1 :: cs2) := by
            have := hp.head_children
            simpa [Node.children] using this
          simp only [List.length_cons, List.length_append] at hlt
          have h1 : parseItems f (linesOfList (c1 :: cs2)
              ++ (Line.closeB :: (linesOfList ns2 ++ rest))) = some (c1 :: cs2,
                Line.closeB :: (linesOfList ns2 ++ rest)) := by
            refine IH f (by omega) (c1 :: cs2) _ hchild (Or.inr ⟨_, rfl⟩) ?_
            simp only [List.length_cons, List.length_append]
            omega
          have h2 : parseItems f (linesOfList ns2 ++ rest) = some (ns2, rest) := by
            refine IH f (by omega) ns2 rest htail hrest ?_
            omega
          rw [show (Line.openB n :: ((linesOfList (c1 :: cs2) ++ [Line.closeB])
              ++ linesOfList ns2)) ++ rest
              = Line.openB n :: (linesOfList (c1 :: cs2)
                ++ (Line.closeB :: (linesOfList ns2 ++ rest))) by simp]
          simp [parseItems, h1, h2]

/-- Shape of the token list of each line form. -/
theorem escapeOut_id {v : List Char} (h : '\\' ∉ v) : escapeOut v = v := by
  induction v with
  | nil => rfl
  | cons c r ih =>
    have hc : ¬(c = '\\') := fun he => h (he ▸ List.mem_cons_self c r)
    rw [show escapeOut (c :: r) = (if c = '\\' then '\\' :: '\\' :: escapeOut r
        else c :: escapeOut r) from by
      by_cases hx : c = '\\'
      · subst hx; simp [escapeOut]
      · cases c; simp [escapeOut, hx]]
    rw [if_neg hc, ih (fun hm => h (List.mem_cons_of_mem c hm))]

theorem readIdent_append {a b : List Char} (ha : ∀ c ∈ a, identChar c = true)
    (hb : b = [] ∨ ∃ d b2, b = d :: b2 ∧ identChar d = false) :
    readIdent (a ++ b) = (a, b) := by
  induction a with
  | nil =>
    rcases hb with h | ⟨d, b2, h, hd⟩
    · subst h; rfl
    · subst h
      simp [readIdent, hd]
  | cons c a2 ih =>
    have hc := ha c (List.mem_cons_self c a2)
    simp [readIdent, hc, ih (fun x hx => ha x (List.mem_cons_of_mem c hx))]

theorem readQuoted_append {v r : List Char}
    (h : ∀ c ∈ v, (c = '"' ∨ c = '\\') → False) :
    readQuoted (v ++ '"' :: r) = some (v, r) := by
  induction v with
  | nil => rfl
  | cons c v2 ih =>
    have hq : ¬(c = '"') := fun he => h c (List.mem_cons_self c v2) (Or.inl he)
    have hb : ¬(c = '\\') := fun he => h c (List.mem_cons_self c v2) (Or.inr he)
    show readQuotedAux false (c :: (v2 ++ '"' :: r)) = some (c :: v2, r)
    have ih2 := ih (fun x hx hor => h x (List.mem_cons_of_mem c hx) hor)
    simp only [readQuotedAux, if_neg hq, if_neg hb]
    rw [show readQuotedAux false (v2 ++ '"' :: r) = readQuoted (v2 ++ '"' :: r) from rfl]
    rw [ih2]
    rfl

theorem safeNameChar_facts {c : Char} (h : safeNameChar c = true) :
    identChar c = true ∧ ¬(c = ' ' ∨ c = '\t' ∨ c = '\n') ∧ ¬(c = '\x7b')
      ∧ ¬(c = '\x7d') ∧ ¬(c = '"') ∧ ¬(c = '\\') ∧ ¬(c = '/') := by
  simp only [safeNameChar, Bool.not_eq_true', Bool.or_eq_false_iff, decide_eq_false_iff_not]
    at h
  obtain ⟨⟨⟨⟨⟨⟨h1, h2⟩, h3⟩, h4⟩, h5⟩, h6⟩, h7⟩ := h
  refine ⟨?_, ?_, ?_, ?_, ?_, ?_, ?_⟩ <;>
    simp [identChar, h1, h2, h3, h4, h5, h6, h7]
theorem toksF_nil {f : Nat} (h : 0 < f) : toksF f [] = some [] := by
  cases f with
  | zero => omega
  | succ f2 => rfl

theorem identChar_facts {c : Char} (h : identChar c = true) :
    ¬(c = ' ' ∨ c = '\t' ∨ c = '\n') ∧ ¬(c = '\x7b') ∧ ¬(c = '\x7d') ∧ ¬(c = '"') := by
  simp only [identChar, Bool.not_eq_true', Bool.or_eq_false_iff, decide_eq_false_iff_not] at h
  obtain ⟨⟨⟨⟨⟨h1, h2⟩, h3⟩, h4⟩, h5⟩, h6⟩ := h
  exact ⟨by tauto, h5, h6, h4⟩

theorem toksF_token (a r : List Char) (f : Nat) (ha : a ≠ [])
    (hall : ∀ c ∈ a, identChar c = true)
    (hr : r = [] ∨ ∃ r2, r = ' ' :: r2) :
    toksF (f + 1) (a ++ r) = (toksF f r).map (fun ts => Tok.ident (String.mk a) :: ts) := by
  cases a with
  | nil => exact absurd rfl ha
  | cons c0 a2 =>
    obtain ⟨h1, h2, h3, h4⟩ := identChar_facts (hall c0 (List.mem_cons_self c0 a2))
    have hri : readIdent ((c0 :: a2) ++ r) = (c0 :: a2, r) := by
      refine readIdent_append hall ?_
      rcases hr with h | ⟨r2, h⟩
      · exact Or.inl h
      · exact Or.inr ⟨' ', r2, h, by simp [identChar]⟩
    rw [List.cons_append] at hri
    simp only [List.cons_append, toksF, if_neg h1, if_neg h2, if_neg h3, if_neg h4,
      List.append_eq]
    rw [hri]

theorem safeValue_facts {v : String} (hv : safeValue v = true) :
    (∀ c ∈ v.data, (c = '"' ∨ c = '\\') → False) ∧ '\\' ∉ v.data ∧ '\n' ∉ v.data := by
  simp only [safeValue, List.all_eq_true, Bool.not_eq_true', Bool.or_eq_false_iff,
    decide_eq_false_iff_not] at hv
  refine ⟨?_, ?_, ?_⟩
  · intro c hc hor
    obtain ⟨⟨hq, hb⟩, hn⟩ := hv c hc
    rcases hor with h | h
    · exact hq h
    · exact hb h
  · intro hm
    exact (hv '\\' hm).1.2 rfl
  · intro hm
    exact (hv '\n' hm).2 rfl

theorem needsQuote_false_facts {v : String} (h : needsQuote v = false) :
    v.data ≠ [] ∧ ∀ c ∈ v.data, identChar c = true := by
  simp only [needsQuote, Bool.or_eq_false_iff, List.any_eq_false,
    decide_eq_false_iff_not] at h
  obtain ⟨hany, hne⟩ := h
  constructor
  · intro he
    apply hne
    cases v with
    | mk d =>
      rw [show (String.mk d).data = d from rfl] at he
      rw [he]
  · intro c hc
    have h2 := hany c hc
    simp only [Bool.not_eq_true, Bool.or_eq_false_iff, decide_eq_false_iff_not] at h2
    obtain ⟨⟨⟨⟨⟨hc1, hc2⟩, hc3⟩, hc4⟩, hc5⟩, hc6⟩ := h2
    simp [identChar, hc1, hc2, hc3, hc4, hc5, hc6]
theorem toksF_qvalue (v : String) (hv : safeValue v = true) :
    ∀ f, ((quoteValue v).data).length < f →
    toksF f ((quoteValue v).data) = some [Tok.ident v] := by
  intro f hf
  by_cases hq : needsQuote v = true
  · obtain ⟨hqb, hnb, _⟩ := safeValue_facts hv
    have hdata : (quoteValue v).data = '"' :: (v.data ++ ['"']) := by
      simp only [quoteValue, if_pos hq]
      rw [escapeOut_id hnb]
      cases v with
      | mk d => rfl
    rw [hdata] at hf ⊢
    cases f with
    | zero => omega
    | succ f1 =>
      rw [show toksF (f1 + 1) ('"' :: (v.data ++ ['"']))
          = (match readQuoted (v.data ++ ['"']) with
            | none => none
            | some p => (toksF f1 p.2).map (fun ts => Tok.ident (String.mk p.1) :: ts))
          from rfl]
      rw [show (v.data ++ ['"']) = v.data ++ '"' :: [] from rfl]
      rw [readQuoted_append hqb]
      show (toksF f1 []).map (fun ts => Tok.ident (String.mk v.data) :: ts) = _
      rw [toksF_nil (by simp at hf; omega)]
      cases v with
      | mk d => rfl
  · have hqf : needsQuote v = false := by simpa using hq
    obtain ⟨hne, hall⟩ := needsQuote_false_facts hqf
    have hdata : (quoteValue v).data = v.data := by simp [quoteValue, hqf]
    rw [hdata] at hf ⊢
    cases f with
    | zero => omega
    | succ f1 =>
      have hstep := toksF_token v.data [] f1 hne hall (Or.inl rfl)
      rw [List.append_nil] at hstep
      have hlen : 0 < v.data.length := List.length_pos.mpr hne
      rw [hstep, toksF_nil (show 0 < f1 by omega)]
      cases v with
      | mk d => rfl

theorem safeName_facts {n : String} (hn : safeName n = true) :
    n.data ≠ [] ∧ ∀ c ∈ n.data, identChar c = true := by
  simp only [safeName, Bool.and_eq_true, Bool.not_eq_true', List.all_eq_true] at hn
  obtain ⟨hne, hall⟩ := hn
  refine ⟨?_, ?_⟩
  · intro h
    rw [h] at hne
    simp at hne
  · intro c hc
    exact (safeNameChar_facts (hall c hc)).1
theorem toksF_lineCore (l : Line) (hg : goodLine l) :
    ∀ f, (lineCore l).length < f → toksF f (lineCore l) = some (toksOfLine l) := by
  intro f hf
  cases l with
  | closeB =>
    cases f with
    | zero => simp [lineCore] at hf
    | succ f1 =>
      cases f1 with
      | zero => simp [lineCore] at hf
      | succ f2 =>
        show toksF (f2 + 1 + 1) ['\x7d'] = some [Tok.closeB]
        rw [show toksF (f2 + 1 + 1) ['\x7d']
            = (toksF (f2 + 1) []).map (fun ts => Tok.closeB :: ts) from rfl]
        rw [toksF_nil (Nat.succ_pos f2)]
        rfl
  | openB n =>
    obtain ⟨hne, hall⟩ := safeName_facts hg
    have hlen : 0 < n.data.length := List.length_pos.mpr hne
    simp only [lineCore] at hf ⊢
    simp only [List.length_append, List.length_cons, List.length_nil] at hf
    cases f with
    | zero => omega
    | succ f1 =>
      have hstep := toksF_token n.data [' ', '\x7b'] f1 hne hall (Or.inr ⟨['\x7b'], rfl⟩)
      rw [hstep]
      cases f1 with
      | zero => omega
      | succ f2 =>
        rw [show toksF (f2 + 1) [' ', '\x7b'] = toksF f2 ['\x7b'] from rfl]
        cases f2 with
        | zero => omega
        | succ f3 =>
          rw [show toksF (f3 + 1) ['\x7b']
              = (toksF f3 []).map (fun ts => Tok.openB :: ts) from rfl]
          rw [toksF_nil (show 0 < f3 by omega)]
          rfl
  | val n v =>
    obtain ⟨hg1, hg2⟩ := hg
    obtain ⟨hne, hall⟩ := safeName_facts hg1
    have hlen : 0 < n.data.length := List.length_pos.mpr hne
    cases v with
    | none =>
      simp only [lineCore] at hf ⊢
      cases f with
      | zero => omega
      | succ f1 =>
        have hstep := toksF_token n.data [] f1 hne hall (Or.inl rfl)
        rw [List.append_nil] at hstep
        rw [hstep, toksF_nil (show 0 < f1 by omega)]
        rfl
    | some v0 =>
      have hv := hg2 v0 rfl
      simp only [lineCore] at hf ⊢
      simp only [List.length_append, List.length_cons] at hf
      cases f with
      | zero => omega
      | succ f1 =>
        have hstep := toksF_token n.data (' ' :: (quoteValue v0).data) f1 hne hall
          (Or.inr ⟨(quoteValue v0).data, rfl⟩)
        rw [hstep]
        cases f1 with
        | zero => omega
        | succ f2 =>
          rw [show toksF (f2 + 1) (' ' :: (quoteValue v0).data)
              = toksF f2 ((quoteValue v0).data) from rfl]
          rw [toksF_qvalue v0 hv f2 (by omega)]
          rfl

theorem tokensOf_lineCore (l : Line) (hg : goodLine l) :
    tokensOf (lineCore l) = some (toksOfLine l) :=
  toksF_lineCore l hg ((lineCore l).length + 1) (Nat.lt_succ_self _)

theorem linesParse_cons (l : Line) (hg : goodLine l) (ls : List (List Char)) :
    linesParse (lineCore l :: ls) = (linesParse ls).map (fun r => l :: r) := by
  have ht := tokensOf_lineCore l hg
  show (tokensOf (lineCore l)).bind
      (fun toks => (linesParse ls).bind
        (fun rest =>
          match toks with
          | [] => pure rest
          | _ => (lineOfToks toks).bind (fun ln => pure (ln :: rest)))) = _
  rw [ht, Option.some_bind]
  cases l with
  | val n v =>
    cases v with
    | none => cases linesParse ls with | none => rfl | some r => rfl
    | some v0 => cases linesParse ls with | none => rfl | some r => rfl
  | openB n => cases linesParse ls with | none => rfl | some r => rfl
  | closeB => cases linesParse ls with | none => rfl | some r => rfl

theorem linesParse_cores (ls : List Line) (hg : ∀ l ∈ ls, goodLine l) :
    linesParse (ls.map lineCore ++ [[], []]) = some ls := by
  induction ls with
  | nil => rfl
  | cons l ls2 ih =>
    rw [List.map_cons, List.cons_append,
      linesParse_cons l (hg l (List.mem_cons_self l ls2)),
      ih (fun x hx => hg x (List.mem_cons_of_mem l hx))]
    rfl
theorem safeName_mem {n : String} (hn : safeName n = true) :
    ∀ c ∈ n.data, safeNameChar c = true := by
  simp only [safeName, Bool.and_eq_true, List.all_eq_true] at hn
  exact hn.2

theorem quoteValue_chars {v : String} (hv : safeValue v = true) :
    '\n' ∉ (quoteValue v).data ∧ '\\' ∉ (quoteValue v).data := by
  obtain ⟨hq, hb, hn⟩ := safeValue_facts hv
  by_cases h : needsQuote v = true
  · have hdata : (quoteValue v).data = '"' :: (v.data ++ ['"']) := by
      simp only [quoteValue, if_pos h]
      rw [escapeOut_id hb]
      cases v with
      | mk d => rfl
    rw [hdata]
    constructor <;> intro hc
    · rcases List.mem_cons.mp hc with h1 | h2
      · exact absurd h1 (by decide)
      · rcases List.mem_append.mp h2 with h3 | h4
        · exact hn h3
        · exact absurd h4 (by decide)
    · rcases List.mem_cons.mp hc with h1 | h2
      · exact absurd h1 (by decide)
      · rcases List.mem_append.mp h2 with h3 | h4
        · exact hb h3
        · exact absurd h4 (by decide)
  · have hdata : (quoteValue v).data = v.data := by
      simp only [quoteValue, h, if_false]
      simp at h
      simp [h]
    rw [hdata]
    exact ⟨hn, hb⟩

theorem lineCore_no_nl {l : Line} (hg : goodLine l) : '\n' ∉ lineCore l := by
  cases l with
  | closeB => decide
  | openB n =>
    intro hc
    rcases List.mem_append.mp hc with h1 | h2
    · have := safeNameChar_facts (safeName_mem hg '\n' h1)
      exact this.2.1 (Or.inr (Or.inr rfl))
    · exact absurd h2 (by decide)
  | val n v =>
    obtain ⟨hg1, hg2⟩ := hg
    cases v with
    | none =>
      intro hc
      have := safeNameChar_facts (safeName_mem hg1 '\n' hc)
      exact this.2.1 (Or.inr (Or.inr rfl))
    | some v0 =>
      intro hc
      rcases List.mem_append.mp hc with h1 | h2
      · have := safeNameChar_facts (safeName_mem hg1 '\n' h1)
        exact this.2.1 (Or.inr (Or.inr rfl))
      · rcases List.mem_cons.mp h2 with h3 | h4
        · exact absurd h3 (by decide)
        · exact (quoteValue_chars (hg2 v0 rfl)).1 h4

theorem lineCore_no_bs {l : Line} (hg : goodLine l) : '\\' ∉ lineCore l := by
  cases l with
  | closeB => decide
  | openB n =>
    intro hc
    rcases List.mem_append.mp hc with h1 | h2
    · exact (safeNameChar_facts (safeName_mem hg '\\' h1)).2.2.2.2.2.1 rfl
    · exact absurd h2 (by decide)
  | val n v =>
    obtain ⟨hg1, hg2⟩ := hg
    cases v with
    | none =>
      intro hc
      exact (safeNameChar_facts (safeName_mem hg1 '\\' hc)).2.2.2.2.2.1 rfl
    | some v0 =>
      intro hc
      rcases List.mem_append.mp hc with h1 | h2
      · exact (safeNameChar_facts (safeName_mem hg1 '\\' h1)).2.2.2.2.2.1 rfl
      · rcases List.mem_cons.mp h2 with h3 | h4
        · exact absurd h3 (by decide)
        · exact (quoteValue_chars (hg2 v0 rfl)).2 h4

theorem name_head_ne_slash {n : String} (hn : safeName n = true) {c : Char}
    {r rest : List Char} (he : n.data ++ rest = c :: r) : ¬(c = '/') := by
  obtain ⟨hne, _⟩ := safeName_facts hn
  cases hd : n.data with
  | nil => exact absurd hd hne
  | cons c0 t =>
    rw [hd, List.cons_append] at he
    have hc0 : c0 = c := (List.cons.injEq _ _ _ _ ▸ he).1
    intro hcs
    have hmem : c0 ∈ n.data := by rw [hd]; exact List.mem_cons_self c0 t
    exact (safeNameChar_facts (safeName_mem hn c0 hmem)).2.2.2.2.2.2 (hc0.trans hcs)

theorem lineCore_head {l : Line} (hg : goodLine l) {c : Char} {r : List Char}
    (he : lineCore l = c :: r) : ¬(c = '/') := by
  cases l with
  | closeB =>
    have : c = '\x7d' := (List.cons.injEq _ _ _ _ ▸ he).1.symm
    rw [this]
    decide
  | openB n => exact name_head_ne_slash hg he
  | val n v =>
    obtain ⟨hg1, _⟩ := hg
    cases v with
    | none =>
      have he2 : n.data ++ [] = c :: r := by rw [List.append_nil]; exact he
      exact name_head_ne_slash hg1 he2
    | some v0 => exact name_head_ne_slash hg1 he

theorem textOf_no_bs (ls : List Line) (hg : ∀ l ∈ ls, goodLine l) :
    '\\' ∉ textOfLines ls := by
  induction ls with
  | nil => simp [textOfLines]
  | cons l ls2 ih =>
    intro hc
    rcases List.mem_append.mp hc with h1 | h2
    · exact lineCore_no_bs (hg l (List.mem_cons_self l ls2)) h1
    · rcases List.mem_cons.mp h2 with h3 | h4
      · exact absurd h3 (by decide)
      · exact ih (fun x hx => hg x (List.mem_cons_of_mem l hx)) h4
theorem splitLines_append {a : List Char} (ha : '\n' ∉ a) (b : List Char) :
    splitLines (a ++ '\n' :: b) = a :: splitLines b := by
  induction a with
  | nil =>
    show splitLines ('\n' :: b) = [] :: splitLines b
    simp [splitLines]
  | cons c a2 ih =>
    have hc : ¬(c = '\n') := fun he => ha (by rw [he]; exact List.mem_cons_self '\n' a2)
    have ha2 : '\n' ∉ a2 := fun hm => ha (List.mem_cons_of_mem c hm)
    show splitLines (c :: (a2 ++ '\n' :: b)) = (c :: a2) :: splitLines b
    simp only [splitLines, if_neg hc]
    rw [ih ha2]

theorem splitLines_textOf (ls : List Line) (hnl : ∀ l ∈ ls, '\n' ∉ lineCore l) :
    splitLines (textOfLines ls ++ ['\n']) = ls.map lineCore ++ [[], []] := by
  induction ls with
  | nil => rfl
  | cons l ls2 ih =>
    show splitLines ((lineCore l ++ '\n' :: textOfLines ls2) ++ ['\n']) = _
    rw [List.append_assoc, List.cons_append]
    rw [splitLines_append (hnl l (List.mem_cons_self l ls2))]
    rw [ih (fun x hx => hnl x (List.mem_cons_of_mem l hx))]
    rfl

theorem ebScan_id {s : List Char} (h : '\\' ∉ s) : ∀ b, ebScan b s = s := by
  induction s with
  | nil => intro b; rfl
  | cons c r ih =>
    intro b
    have hc : ¬(c = '\\') := fun he => h (by rw [← he]; exact List.mem_cons_self c r)
    have hr : '\\' ∉ r := fun hm => h (List.mem_cons_of_mem c hm)
    show (if c = '\\' ∧ b = false ∧ laMatch r = false then [c, c] else [c])
        ++ ebScan (decide (c = '\\')) r = c :: r
    rw [if_neg (fun hand => hc hand.1), ih hr]
    rfl

theorem bannerScan_false {a : List Char} (ha : '\n' ∉ a) (b : List Char) :
    bannerScan false (a ++ '\n' :: b) = bannerScan true b := by
  induction a with
  | nil =>
    show bannerScan false ('\n' :: b) = bannerScan true b
    show (if False = True ∧ '\n' = '/' ∧ b[0]? = some '/' then '\n' :: b
        else bannerScan (decide ('\n' = '\n')) b) = bannerScan true b
    rw [if_neg (fun hand => by exact absurd hand.2.1 (by decide))]
    rfl
  | cons c a2 ih =>
    have hc : ¬(c = '\n') := fun he => ha (by rw [← he]; exact List.mem_cons_self c a2)
    have ha2 : '\n' ∉ a2 := fun hm => ha (List.mem_cons_of_mem c hm)
    show (if false = true ∧ c = '/' ∧ (a2 ++ '\n' :: b)[0]? = some '/' then c :: (a2 ++ '\n' :: b)
        else bannerScan (decide (c = '\n')) (a2 ++ '\n' :: b)) = bannerScan true b
    rw [if_neg (fun hand => by exact absurd hand.1 (by decide))]
    rw [show (decide (c = '\n')) = false from decide_eq_false hc]
    exact ih ha2

theorem bannerScan_line {a : List Char} (ha : '\n' ∉ a)
    (hhead : ∀ c r, a = c :: r → ¬(c = '/')) (b : List Char) :
    bannerScan true (a ++ '\n' :: b) = bannerScan true b := by
  cases a with
  | nil =>
    show bannerScan true ('\n' :: b) = bannerScan true b
    show (if true = true ∧ '\n' = '/' ∧ b[0]? = some '/' then '\n' :: b
        else bannerScan (decide ('\n' = '\n')) b) = bannerScan true b
    rw [if_neg (fun hand => by exact absurd hand.2.1 (by decide))]
    rfl
  | cons c a2 =>
    have hc : ¬(c = '/') := hhead c a2 rfl
    have hcn : ¬(c = '\n') := fun he => ha (by rw [← he]; exact List.mem_cons_self c a2)
    have ha2 : '\n' ∉ a2 := fun hm => ha (List.mem_cons_of_mem c hm)
    show (if true = true ∧ c = '/' ∧ (a2 ++ '\n' :: b)[0]? = some '/' then c :: (a2 ++ '\n' :: b)
        else bannerScan (decide (c = '\n')) (a2 ++ '\n' :: b)) = bannerScan true b
    rw [if_neg (fun hand => hc hand.2.1)]
    rw [show (decide (c = '\n')) = false from decide_eq_false hcn]
    exact bannerScan_false ha2 b

theorem bannerScan_textOf (ls : List Line) (hg : ∀ l ∈ ls, goodLine l) :
    bannerScan true (textOfLines ls ++ ['\n']) = [] := by
  induction ls with
  | nil => rfl
  | cons l ls2 ih =>
    show bannerScan true ((lineCore l ++ '\n' :: textOfLines ls2) ++ ['\n']) = []
    rw [List.append_assoc, List.cons_append]
    rw [bannerScan_line (lineCore_no_nl (hg l (List.mem_cons_self l ls2)))
      (fun c r he => lineCore_head (hg l (List.mem_cons_self l ls2)) he)]
    exact ih (fun x hx => hg x (List.mem_cons_of_mem l hx))
theorem Printable_nil : Printable ([] : List Node) :=
  Printable.mk [] (by simp) (by simp) (by simp) (by simp) (by simp) (by simp)

theorem linesOfList_good : ∀ ns, Printable ns → ∀ l ∈ linesOfList ns, goodLine l := by
  intro ns h
  induction h with
  | mk ns2 hnd hn hv hx ht hch ih =>
    have inner : ∀ ms : List Node, (∀ c ∈ ms, c ∈ ns2) → ∀ l ∈ linesOfList ms, goodLine l := by
      intro ms
      induction ms with
      | nil => intro _ l hl; simp [linesOfList] at hl
      | cons c ms2 ihm =>
        intro hsub l hl
        have hcns : c ∈ ns2 := hsub c (List.mem_cons_self c ms2)
        rw [show linesOfList (c :: ms2) = linesOfNode c ++ linesOfList ms2 from rfl] at hl
        rcases List.mem_append.mp hl with h1 | h2
        · cases c with
          | mk n vs cs t =>
            have hname : safeName n = true := hn _ hcns
            have hvals : ∀ v ∈ vs, safeValue v = true := fun v hv2 => hv _ hcns v hv2
            have hmapv : l ∈ vs.map (fun v => Line.val n (some v)) → goodLine l := by
              intro hm
              rcases List.mem_map.mp hm with ⟨v, hv2, hle⟩
              rw [← hle]
              refine ⟨hname, ?_⟩
              intro x hx
              rw [Option.mem_def] at hx
              injection hx with hvx
              rw [← hvx]
              exact hvals v hv2
            rw [show linesOfNode (Node.mk n vs cs t)
                = (if cs.isEmpty then
                    (if vs.isEmpty then [Line.val n none]
                      else vs.map (fun v => Line.val n (some v)))
                  else vs.map (fun v => Line.val n (some v))
                    ++ (Line.openB n :: (linesOfList cs ++ [Line.closeB]))) from rfl] at h1
            by_cases hcs : cs.isEmpty
            · rw [if_pos hcs] at h1
              by_cases hvs : vs.isEmpty
              · rw [if_pos hvs] at h1
                rw [List.mem_singleton.mp h1]
                refine ⟨hname, ?_⟩
                intro x hx
                exact absurd hx (by simp)
              · rw [if_neg hvs] at h1
                exact hmapv h1
            · rw [if_neg hcs] at h1
              rcases List.mem_append.mp h1 with h3 | h4
              · exact hmapv h3
              · rcases List.mem_cons.mp h4 with h5 | h6
                · rw [h5]
                  exact hname
                · rcases List.mem_append.mp h6 with h7 | h8
                  · exact ih _ hcns l h7
                  · rw [List.mem_singleton.mp h8]
                    exact trivial
        · exact ihm (fun x hx => hsub x (List.mem_cons_of_mem c hx)) l h2
    exact inner ns2 (fun c hc => hc)
theorem toString_data (t : ConfigTree) (hver : t.version = "") :
    (ConfigTree.to_string t true).data = textOfLines (linesOfList t.root) ++ ['\n'] := by
  rw [show ConfigTree.to_string t true
      = String.mk (textOfLines (linesOfList t.root)) ++ "\n" ++ t.version from rfl]
  rw [hver]
  show (textOfLines (linesOfList t.root) ++ ['\n']) ++ [] = _
  rw [List.append_nil]

/-- Claim C9, amended: for a tree whose root satisfies `Printable`
(unique safe sibling names, safe values, no node carrying both values
and children, no tag flags) and whose version section is empty, parsing
the text produced by `to_string` with `ordered_values = true` returns
the tree unchanged. -/
theorem c9_amended (t : ConfigTree) (hp : Printable t.root) (hver : t.version = "") :
    ConfigTree.fromString (ConfigTree.to_string t true) = some t := by
  have hgood : ∀ l ∈ linesOfList t.root, goodLine l := linesOfList_good t.root hp
  have hdata := toString_data t hver
  have hnb : '\\' ∉ (ConfigTree.to_string t true).data := by
    rw [hdata]
    intro hc
    rcases List.mem_append.mp hc with h1 | h2
    · exact textOf_no_bs _ hgood h1
    · exact absurd h2 (by decide)
  have heb : escape_backslash (ConfigTree.to_string t true) = ConfigTree.to_string t true := by
    show String.mk (ebScan false (ConfigTree.to_string t true).data) = _
    rw [ebScan_id hnb false]
  have hfs : from_string (ConfigTree.to_string t true) = some t.root := by
    show (linesParse (splitLines (ConfigTree.to_string t true).data)).bind
        (fun ls => parseLines ls) = some t.root
    rw [hdata]
    rw [splitLines_textOf _ (fun l hl => lineCore_no_nl (hgood l hl))]
    rw [linesParse_cores _ hgood]
    rw [Option.some_bind]
    show (match parseItems ((linesOfList t.root).length + 1) (linesOfList t.root) with
      | some (ns, []) => some ns
      | _ => none) = some t.root
    have hpi := parseItems_inv ((linesOfList t.root).length + 1) t.root [] hp (Or.inl rfl)
      (by simp)
    rw [List.append_nil] at hpi
    rw [hpi]
  have hv2 : (extract_version (ConfigTree.to_string t true)).2 = "" := by
    show String.mk (bannerScan true (ConfigTree.to_string t true).data) = ""
    rw [hdata, bannerScan_textOf _ hgood]
  show (match from_string (escape_backslash (extract_version (ConfigTree.to_string t true)).1) with
    | some ns => some (⟨ns, (extract_version (ConfigTree.to_string t true)).2⟩ : ConfigTree)
    | none => none) = some t
  rw [show (extract_version (ConfigTree.to_string t true)).1 = ConfigTree.to_string t true
    from rfl]
  rw [heb, hfs, hv2]
  rw [← hver]
/-- Claim C9, counterexample: trees built purely from the mutation API do
not always survive the text round trip.  A value holding a backslash is
corrupted: `escape_backslash` doubles the backslash of the serialized
form before parsing, so the value comes back changed; and a tag flag set
with `set_tag` is lost, because the text grammar has no tag marker. -/
theorem c9_counterexample :
    ConfigTree.set emptyCT (.pyList ["a"]) (some "\\x") true
        = .ok ⟨[Node.mk "a" ["\\x"] [] false], ""⟩
    ∧ ConfigTree.fromString
        (ConfigTree.to_string ⟨[Node.mk "a" ["\\x"] [] false], ""⟩ true)
        = some ⟨[Node.mk "a" ["\\\\x"] [] false], ""⟩
    ∧ ("\\\\x" : String) ≠ "\\x"
    ∧ ConfigTree.set emptyCT (.pyList ["b"]) none true
        = .ok ⟨[Node.mk "b" [] [] false], ""⟩
    ∧ ConfigTree.set_tag ⟨[Node.mk "b" [] [] false], ""⟩ (.pyList ["b"])
        = .ok ⟨[Node.mk "b" [] [] true], ""⟩
    ∧ ConfigTree.fromString
        (ConfigTree.to_string ⟨[Node.mk "b" [] [] true], ""⟩ true)
        = some ⟨[Node.mk "b" [] [] false], ""⟩
    ∧ (true : Bool) ≠ false :=
  ⟨rfl, rfl, by decide, rfl, rfl, rfl, by decide⟩

theorem c9_witness :
    ConfigTree.fromString
        (ConfigTree.to_string ⟨[Node.mk "a" ["x y"] [] false], ""⟩ true)
      = some ⟨[Node.mk "a" ["x y"] [] false], ""⟩ := by
  have hp : Printable [Node.mk "a" ["x y"] [] false] := by
    refine Printable.mk _ ?_ ?_ ?_ ?_ ?_ ?_
    · simp
    · intro c hc
      rw [List.mem_singleton.mp hc]
      decide
    · intro c hc v hv
      rw [List.mem_singleton.mp hc] at hv
      rw [List.mem_singleton.mp hv]
      decide
    · intro c hc
      rw [List.mem_singleton.mp hc]
      exact Or.inr rfl
    · intro c hc
      rw [List.mem_singleton.mp hc]
      rfl
    · intro c hc
      rw [List.mem_singleton.mp hc]
      exact Printable_nil
  exact c9_amended ⟨[Node.mk "a" ["x y"] [] false], ""⟩ hp rfl

end Vyos
